import Mathlib

/-!
# Verification of `hardlink_cleaner.py`

A shallow embedding of the hardlink-cleaner program: a filesystem is modelled
as a tree of nodes (regular files, symlinks, directories, other entries), each
carrying the stat fields the program reads (`st_dev`, `st_ino`, `st_size`,
`st_blocks`, `st_nlink`).  The program's walks, size aggregation, deletion
policies, snapshot persistence and interactive selection operations are
translated into executable Lean functions, and the specification's claims are
settled against them.
-/

namespace HardlinkCleaner

/-- The stat fields of a filesystem entry that the program reads
(`st_dev`, `st_ino`, `st_size`, `st_blocks`, `st_nlink`). -/
structure StatR where
  dev : Nat
  ino : Nat
  size : Nat
  blocks : Nat
  nlink : Nat
deriving DecidableEq, Repr

/-- The inode identity `(st_dev, st_ino)` of a stat record. -/
def inodeKey (st : StatR) : Nat × Nat := (st.dev, st.ino)

/-- A stat result as `file_disk_usage` sees it: `st_blocks` may be missing
(`getattr(st, "st_blocks", None)` returns `None`), `st_size` is always
present. -/
structure PyStat where
  st_blocks : Option Nat
  st_size : Nat
deriving DecidableEq, Repr

/-- `file_disk_usage(st)` (lines 40-45): returns `int(blocks) * 512` when
`st_blocks` is present AND strictly positive, otherwise `int(st.st_size)`. -/
def file_disk_usage (st : PyStat) : Nat :=
  match st.st_blocks with
  | some blocks => if 0 < blocks then blocks * 512 else st.st_size
  | none => st.st_size

/-- Disk usage of a full stat record (where `st_blocks` is present). -/
def usageR (st : StatR) : Nat := file_disk_usage ⟨some st.blocks, st.size⟩

/-- The claim's formula for disk usage under block accounting:
`max(reported_block_count, 0) * 512` whenever a block-count field is
available, else the nominal size.  (Stated from the spec's words, to be
compared with `file_disk_usage` from the source.) -/
def usage_spec_claim (st : PyStat) : Nat :=
  match st.st_blocks with
  | some blocks => max blocks 0 * 512
  | none => st.st_size

/-- The amended formula: block accounting applies only when the reported
block count is strictly positive; a zero (or absent) block count falls back
to the nominal size. -/
def usage_spec_amended (st : PyStat) : Nat :=
  match st.st_blocks with
  | some blocks => if 0 < blocks then blocks * 512 else st.st_size
  | none => st.st_size

/-! ## Python dictionaries as association lists

Python `dict`s preserve insertion order: assigning to an existing key updates
it in place, a fresh key is appended at the end.  `defaultdict(list)` appends
to the existing list.  We model them as association lists. -/

/-- Lookup in an association list (Python `d.get(k)` / `d[k]`). -/
def dlookup {α β : Type} [DecidableEq α] (k : α) : List (α × β) → Option β
  | [] => none
  | e :: es => if e.1 = k then some e.2 else dlookup k es

/-- `d[k] = v`: update in place if the key exists, else append at the end. -/
def dinsert {α β : Type} [DecidableEq α] (m : List (α × β)) (k : α) (v : β) :
    List (α × β) :=
  match m with
  | [] => [(k, v)]
  | e :: es => if e.1 = k then (k, v) :: es else e :: dinsert es k v

/-- `d.update(l)`: insert every pair of `l` in order. -/
def dupdate {α β : Type} [DecidableEq α] (m : List (α × β)) (l : List (α × β)) :
    List (α × β) :=
  l.foldl (fun m e => dinsert m e.1 e.2) m

/-- `defaultdict(list)`: `d[k].append(v)`. -/
def dappend {α β : Type} [DecidableEq α] (m : List (α × List β)) (k : α) (v : β) :
    List (α × List β) :=
  match dlookup k m with
  | some vs => dinsert m k (vs ++ [v])
  | none => m ++ [(k, [v])]

/-- `defaultdict(int)`: `d[k] += v` (a missing key counts as `0`). -/
def dbump {α : Type} [DecidableEq α] (m : List (α × Nat)) (k : α) (v : Nat) :
    List (α × Nat) :=
  match dlookup k m with
  | some n => dinsert m k (n + v)
  | none => m ++ [(k, v)]

/-! ## The filesystem model

A node of the filesystem tree: a regular file, a symbolic link, a directory
with children, or any other entry (device, fifo, ...).  Stats are stored in
the node; hardlinked paths are distinct nodes sharing the same
`(st_dev, st_ino)` pair. -/

inductive FNode where
  | file (name : String) (st : StatR)
  | sym (name : String) (st : StatR)
  | oth (name : String) (st : StatR)
  | dir (name : String) (st : StatR) (children : List FNode)
deriving Repr

/-- The name of a node. -/
def FNode.name : FNode → String
  | .file n _ => n
  | .sym n _ => n
  | .oth n _ => n
  | .dir n _ _ => n

/-- The stat record of a node (`os.stat(path, follow_symlinks=False)`). -/
def FNode.st : FNode → StatR
  | .file _ s => s
  | .sym _ s => s
  | .oth _ s => s
  | .dir _ s _ => s

/-- `os.path.join(base, name)` for absolute `base` on POSIX. -/
def joinPath (base name : String) : String := base ++ "/" ++ name

/-- The `files` list `os.walk` reports for a directory whose entries are
`cs`: every non-directory entry; the loops then stat each one and skip it
unless `S_ISREG`, so only regular files contribute `(path, stat)`. -/
def filesOf (base : String) (cs : List FNode) : List (String × StatR) :=
  cs.filterMap fun c =>
    match c with
    | .file n st => some (joinPath base n, st)
    | .sym _ _ => none
    | .oth _ _ => none
    | .dir _ _ _ => none

/-! The regular-file collection performed by the `os.walk` loops of
`find_deletable_inodes_variant_a` (lines 147-169), `collect_target_inodes`
(lines 294-316) and `collect_files_from_directory` (lines 733-751): walk the
tree top-down without following symlinks, prune a whole subtree when `xdev`
is set and the directory's device differs from the walk root's device
(`dirs[:] = []`), and record `(path, stat)` of every regular file — the
files of a directory before the recursion into its subdirectories, as
`os.walk` yields them. -/
mutual

/-- Walk the remaining entries of one directory listing, recursing into each
subdirectory in order. -/
def walkRegDirs (xdev : Bool) (rootDev : Nat) (base : String) :
    List FNode → List (String × StatR)
  | [] => []
  | c :: cs =>
    walkRegEnter xdev rootDev base c ++ walkRegDirs xdev rootDev base cs

/-- Enter one entry: subtrees of other devices are pruned whole. -/
def walkRegEnter (xdev : Bool) (rootDev : Nat) (base : String) :
    FNode → List (String × StatR)
  | .dir n st sub =>
    if xdev && !(st.dev = rootDev) then []
    else
      filesOf (joinPath base n) sub ++
        walkRegDirs xdev rootDev (joinPath base n) sub
  | _ => []

end

/-- The `os.walk(target_dir)` of the collection loops, entered at the target
directory itself (whose own stat provides the reference device `root_dev`).
`os.walk` on a non-directory yields nothing. -/
def scanTarget (xdev : Bool) (targetPath : String) : FNode → List (String × StatR)
  | .dir _ st cs => filesOf targetPath cs ++ walkRegDirs xdev st.dev targetPath cs
  | _ => []

/-- `inode_to_paths`: `defaultdict(list)` keyed by `(st_dev, st_ino)`,
appending each discovered path (lines 144, 167-168 / 333, 361-363). -/
def buildPathGroups (scan : List (String × StatR)) :
    List ((Nat × Nat) × List String) :=
  scan.foldl (fun m e => dappend m (inodeKey e.2) e.1) []

/-- `inode_to_stat[key] = st`: a plain dict, the last stat recorded for an
inode wins (lines 145, 169 / 292, 316). -/
def buildStatMap (scan : List (String × StatR)) :
    List ((Nat × Nat) × StatR) :=
  scan.foldl (fun m e => dinsert m (inodeKey e.2) e.2) []

/-- Stable insertion of a string into a sorted list (helper for `sorted`). -/
def insertSorted (x : String) : List String → List String
  | [] => [x]
  | y :: ys => if x ≤ y then x :: y :: ys else y :: insertSorted x ys

/-- Python `sorted` on a list of strings (modelled as insertion sort; only
the resulting order differs from CPython's Timsort, never the multiset). -/
def pySorted (l : List String) : List String := l.foldr insertSorted []

/-- `find_deletable_inodes_variant_a` (lines 132-177): walk the target
directory collecting regular files by inode, then keep exactly the inodes
whose `st_nlink` equals the number of in-directory paths found; the kept
paths are sorted.  Returns `(deletable, inode_to_stat)`. -/
def find_deletable_inodes_variant_a (xdev : Bool) (targetPath : String)
    (t : FNode) :
    List ((Nat × Nat) × List String) × List ((Nat × Nat) × StatR) :=
  let scan := scanTarget xdev targetPath t
  let inode_to_paths := buildPathGroups scan
  let inode_to_stat := buildStatMap scan
  let deletable := inode_to_paths.filterMap fun kv =>
    (dlookup kv.1 inode_to_stat).bind fun st =>
      if st.nlink = kv.2.length then some (kv.1, pySorted kv.2) else none
  (deletable, inode_to_stat)

/-- `ans.strip()`: strip surrounding whitespace. -/
def pyStrip (s : String) : String :=
  ⟨((s.data.dropWhile Char.isWhitespace).reverse.dropWhile Char.isWhitespace).reverse⟩

/-- ASCII lower-casing of one character. -/
def pyLowerChar (c : Char) : Char :=
  if 'A' ≤ c && c ≤ 'Z' then Char.ofNat (c.toNat + 32) else c

/-- `ans.lower()`. -/
def pyLower (s : String) : String := ⟨s.data.map pyLowerChar⟩

/-- `ans.strip().lower() in ("y", "yes")`: the confirmation test used by
every prompt (lines 220-221, 424-425, 507-508, 1175-1176). -/
def isYes (ans : String) : Bool :=
  let a := pyLower (pyStrip ans)
  a = "y" || a = "yes"

/-- The observable outcome of one deletion operation: the paths listed to the
operator before the confirmation prompt, the freed-byte estimate, the
returned count triple, and the paths actually passed to `os.unlink`. -/
structure OpRun where
  candidates : List String
  freed : Nat
  ret : Nat × Nat × Nat
  unlinked : List String
deriving Repr, DecidableEq

/-- `delete_variant_a` (lines 180-245).  `ans` is the string `input()` would
return at the confirmation prompt; in this model every unlink succeeds. -/
def delete_variant_a (targetPath : String) (t : FNode)
    (yes dry_run xdev : Bool) (ans : String) : OpRun :=
  let p := find_deletable_inodes_variant_a xdev targetPath t
  let deletable := p.1
  let inode_to_stat := p.2
  let total_inodes := deletable.length
  let total_paths := (deletable.map fun kv => kv.2.length).sum
  let freed_bytes := deletable.foldl
    (fun a kv => (dlookup kv.1 inode_to_stat).elim a fun st => a + usageR st) 0
  if total_inodes = 0 then ⟨[], freed_bytes, (0, 0, 0), []⟩
  else
    let listed := (deletable.map (·.2)).flatten
    if dry_run then
      ⟨listed, freed_bytes, (total_inodes, total_paths, freed_bytes), []⟩
    else if !yes && !isYes ans then ⟨listed, freed_bytes, (0, 0, 0), []⟩
    else ⟨listed, freed_bytes, (total_inodes, listed.length, freed_bytes), listed⟩

/-- First-occurrence deduplication with an accumulator of already-seen
elements. -/
def dedupFirstAux {α : Type} [DecidableEq α] (seen : List α) : List α → List α
  | [] => []
  | x :: xs =>
    if x ∈ seen then dedupFirstAux seen xs
    else x :: dedupFirstAux (x :: seen) xs

/-- First-occurrence deduplication (the insertion order of a Python `set`
built by repeated `add`). -/
def dedupFirst {α : Type} [DecidableEq α] (l : List α) : List α :=
  dedupFirstAux [] l

/-- `collect_target_inodes` (lines 275-317): the inode set and stat map of
every regular file under the target directory. -/
def collect_target_inodes (xdev : Bool) (targetPath : String) (t : FNode) :
    List (Nat × Nat) × List ((Nat × Nat) × StatR) :=
  let scan := scanTarget xdev targetPath t
  (dedupFirst (scan.map fun e => inodeKey e.2), buildStatMap scan)

/-- The `os.scandir(curdir)` filter of `find_all_paths_for_inodes` (lines
346-363): keep each regular file on the root device whose inode key is in
`inodes`. -/
def hitFilesOf (xdev : Bool) (rootDev : Nat) (inodes : List (Nat × Nat))
    (base : String) (cs : List FNode) : List (String × StatR) :=
  cs.filterMap fun c =>
    match c with
    | .file n st =>
      if xdev && !(st.dev = rootDev) then none
      else if inodeKey st ∈ inodes then some (joinPath base n, st) else none
    | _ => none

/-! The walk of `find_all_paths_for_inodes` (lines 320-370): visit every
directory under `fs_root` (pruning other devices when `xdev`) and scan it
with `hitFilesOf`. -/
mutual

/-- Walk the remaining entries of one directory listing, recursing into each
subdirectory in order. -/
def walkHitDirs (xdev : Bool) (rootDev : Nat) (inodes : List (Nat × Nat))
    (base : String) : List FNode → List (String × StatR)
  | [] => []
  | c :: cs =>
    walkHitEnter xdev rootDev inodes base c ++
      walkHitDirs xdev rootDev inodes base cs

/-- Enter one entry: subtrees of other devices are pruned whole. -/
def walkHitEnter (xdev : Bool) (rootDev : Nat) (inodes : List (Nat × Nat))
    (base : String) : FNode → List (String × StatR)
  | .dir n st sub =>
    if xdev && !(st.dev = rootDev) then []
    else
      hitFilesOf xdev rootDev inodes (joinPath base n) sub ++
        walkHitDirs xdev rootDev inodes (joinPath base n) sub
  | _ => []

end

/-- `find_all_paths_for_inodes` entered at the filesystem root node. -/
def find_all_paths_for_inodes (xdev : Bool) (inodes : List (Nat × Nat))
    (fsRootPath : String) : FNode → List (String × StatR)
  | .dir _ st cs =>
    hitFilesOf xdev st.dev inodes fsRootPath cs ++
      walkHitDirs xdev st.dev inodes fsRootPath cs
  | _ => []

/-- `purge_hardlink_groups_globally` (lines 373-449): collect target inodes,
discover all their paths from the filesystem root, then report and (unless
dry-run or declined) unlink every discovered path.  Freed bytes are summed
once per inode group. -/
def purge_hardlink_groups_globally (targetPath fsRootPath : String)
    (tTarget tRoot : FNode) (yes dry_run xdev : Bool) (ans : String) : OpRun :=
  let p := collect_target_inodes xdev targetPath tTarget
  let inodes := p.1
  let inode_stat := p.2
  if inodes.isEmpty then ⟨[], 0, (0, 0, 0), []⟩
  else
    let hits := buildPathGroups (find_all_paths_for_inodes xdev inodes fsRootPath tRoot)
    let freed_bytes := hits.foldl
      (fun a kv => (dlookup kv.1 inode_stat).elim a fun st => a + usageR st) 0
    let total_paths := (hits.map fun kv => kv.2.length).sum
    if hits.isEmpty then ⟨[], freed_bytes, (0, 0, 0), []⟩
    else
      let listed := (hits.map (·.2)).flatten
      if dry_run then
        ⟨listed, freed_bytes, (hits.length, total_paths, freed_bytes), []⟩
      else if !yes && !isYes ans then ⟨listed, freed_bytes, (0, 0, 0), []⟩
      else ⟨listed, freed_bytes, (hits.length, listed.length, freed_bytes), listed⟩

/-! ## Association-list lemmas -/

section DictLemmas

variable {α β : Type} [DecidableEq α]

theorem dlookup_dinsert (m : List (α × β)) (k k' : α) (v : β) :
    dlookup k' (dinsert m k v) = if k = k' then some v else dlookup k' m := by
  induction m with
  | nil => by_cases hk : k = k' <;> simp [dinsert, dlookup, hk]
  | cons e es ih =>
    by_cases he : e.1 = k
    · by_cases hk : k = k'
      · simp [dinsert, he, dlookup, hk]
      · have he' : ¬ e.1 = k' := fun h => hk (he.symm.trans h)
        simp [dinsert, he, dlookup, hk, he']
    · simp only [dinsert, if_neg he, dlookup]
      by_cases he' : e.1 = k'
      · have hk : ¬ k = k' := fun h => he (he'.trans h.symm)
        simp [he', hk]
      · simp [he', ih]

theorem mem_keys_dinsert (m : List (α × β)) (k k' : α) (v : β) :
    k' ∈ (dinsert m k v).map (·.1) ↔ k' = k ∨ k' ∈ m.map (·.1) := by
  induction m with
  | nil => simp [dinsert]
  | cons e es ih =>
    by_cases he : e.1 = k
    · simp only [dinsert, if_pos he, List.map_cons, List.mem_cons]
      rw [he]
      tauto
    · simp only [dinsert, if_neg he, List.map_cons, List.mem_cons, ih]
      tauto

theorem nodup_keys_dinsert (m : List (α × β)) (k : α) (v : β)
    (h : (m.map (·.1)).Nodup) : ((dinsert m k v).map (·.1)).Nodup := by
  induction m with
  | nil => simp [dinsert]
  | cons e es ih =>
    simp only [List.map_cons, List.nodup_cons] at h
    by_cases he : e.1 = k
    · simp only [dinsert, if_pos he, List.map_cons, List.nodup_cons]
      exact ⟨fun hk => h.1 (by rwa [he]), h.2⟩
    · simp only [dinsert, if_neg he, List.map_cons, List.nodup_cons]
      refine ⟨fun hmem => ?_, ih h.2⟩
      rcases (mem_keys_dinsert es k e.1 v).1 hmem with hk | hk
      · exact he hk
      · exact h.1 hk

theorem dlookup_isSome_of_mem_keys (m : List (α × β)) (k : α)
    (hk : k ∈ m.map (·.1)) : dlookup k m ≠ none := by
  induction m with
  | nil => simp at hk
  | cons e es ih =>
    simp only [List.map_cons, List.mem_cons] at hk
    simp only [dlookup]
    by_cases he : e.1 = k
    · simp [he]
    · rcases hk with hk | hk
      · exact absurd hk.symm he
      · simpa [he] using ih hk

theorem dlookup_append_single (m : List (α × β)) (k k' : α) (v : β) :
    dlookup k m = none →
    dlookup k' (m ++ [(k, v)]) = if k = k' then some v else dlookup k' m := by
  induction m with
  | nil =>
    intro _
    by_cases hk : k = k' <;> simp [dlookup, hk]
  | cons e es ih =>
    intro hm
    simp only [dlookup] at hm
    by_cases he : e.1 = k
    · rw [if_pos he] at hm
      exact absurd hm (by simp)
    · rw [if_neg he] at hm
      by_cases he' : e.1 = k'
      · have hk : ¬ k = k' := fun h => he (he'.trans h.symm)
        simp [dlookup, he', hk]
      · simp [dlookup, he', ih hm]

theorem dlookup_dappend (m : List (α × List β)) (k k' : α) (v : β) :
    dlookup k' (dappend m k v) =
      if k = k' then some ((dlookup k m).getD [] ++ [v]) else dlookup k' m := by
  unfold dappend
  cases hm : dlookup k m with
  | some vs => simp [dlookup_dinsert, hm]
  | none => simpa using dlookup_append_single m k k' [v] hm

theorem mem_keys_dappend (m : List (α × List β)) (k k' : α) (v : β) :
    k' ∈ (dappend m k v).map (·.1) ↔ k' = k ∨ k' ∈ m.map (·.1) := by
  unfold dappend
  cases hm : dlookup k m with
  | some vs => rw [mem_keys_dinsert]
  | none =>
    simp only [List.map_append, List.map_cons, List.map_nil, List.mem_append,
      List.mem_cons, List.not_mem_nil, or_false]
    tauto

theorem nodup_keys_dappend (m : List (α × List β)) (k : α) (v : β)
    (h : (m.map (·.1)).Nodup) : ((dappend m k v).map (·.1)).Nodup := by
  unfold dappend
  cases hm : dlookup k m with
  | some vs => exact nodup_keys_dinsert m k _ h
  | none =>
    have hk : k ∉ m.map (·.1) := fun hmem => dlookup_isSome_of_mem_keys m k hmem hm
    simp only [List.map_append, List.map_cons, List.map_nil]
    rw [List.nodup_append]
    refine ⟨h, List.nodup_singleton k, ?_⟩
    intro a ha hb
    simp only [List.mem_singleton] at hb
    exact hk (hb ▸ ha)

theorem dlookup_eq_of_mem_nodup (m : List (α × β)) (k : α) (v : β) :
    (m.map (·.1)).Nodup → (k, v) ∈ m → dlookup k m = some v := by
  induction m with
  | nil => intro _ hm; simp at hm
  | cons e es ih =>
    intro hn hm
    simp only [List.map_cons, List.nodup_cons] at hn
    rw [List.mem_cons] at hm
    rcases hm with hm | hm
    · rw [← hm]; simp [dlookup]
    · have he : e.1 ≠ k := by
        intro h
        exact hn.1 (h ▸ List.mem_map.2 ⟨(k, v), hm, rfl⟩)
      simp only [dlookup, if_neg he]
      exact ih hn.2 hm

theorem mem_of_dlookup_eq_some (m : List (α × β)) (k : α) (v : β) :
    dlookup k m = some v → (k, v) ∈ m := by
  induction m with
  | nil => intro h; simp [dlookup] at h
  | cons e es ih =>
    intro h
    simp only [dlookup] at h
    by_cases he : e.1 = k
    · simp only [if_pos he, Option.some.injEq] at h
      have : e = (k, v) := Prod.ext_iff.2 ⟨he, h⟩
      rw [this]
      exact List.mem_cons_self _ _
    · simp only [if_neg he] at h
      exact List.mem_cons_of_mem _ (ih h)

end DictLemmas

/-! ## Characterizing the scan-built dictionaries -/

/-- The paths of `scan` whose stat has inode key `k`, in discovery order. -/
def pathsInScan (k : Nat × Nat) (scan : List (String × StatR)) : List String :=
  (scan.filter fun e => inodeKey e.2 = k).map (·.1)

/-- The last stat recorded for inode `k` along `scan` (what a
`d[key] = st` loop leaves in the dict). -/
def lastStatIn (k : Nat × Nat) : List (String × StatR) → Option StatR
  | [] => none
  | e :: es =>
    if inodeKey e.2 = k then
      match lastStatIn k es with
      | some st => some st
      | none => some e.2
    else lastStatIn k es

theorem dlookup_pathGroups_fold (k : Nat × Nat) (scan : List (String × StatR)) :
    ∀ m₀ : List ((Nat × Nat) × List String),
      dlookup k (scan.foldl (fun m e => dappend m (inodeKey e.2) e.1) m₀) =
        if dlookup k m₀ = none ∧ pathsInScan k scan = [] then none
        else some ((dlookup k m₀).getD [] ++ pathsInScan k scan) := by
  induction scan with
  | nil =>
    intro m₀
    cases h : dlookup k m₀ <;> simp [pathsInScan, h]
  | cons e es ih =>
    intro m₀
    simp only [List.foldl_cons]
    rw [ih]
    by_cases hk : inodeKey e.2 = k
    · have hlook : dlookup k (dappend m₀ (inodeKey e.2) e.1) =
          some ((dlookup k m₀).getD [] ++ [e.1]) := by
        rw [dlookup_dappend, if_pos hk, hk]
      have hpaths : pathsInScan k (e :: es) = e.1 :: pathsInScan k es := by
        simp [pathsInScan, List.filter_cons, hk]
      rw [hlook, hpaths]
      simp
    · have hlook : dlookup k (dappend m₀ (inodeKey e.2) e.1) = dlookup k m₀ := by
        rw [dlookup_dappend, if_neg hk]
      have hpaths : pathsInScan k (e :: es) = pathsInScan k es := by
        simp [pathsInScan, List.filter_cons, hk]
      rw [hlook, hpaths]

theorem dlookup_buildPathGroups (k : Nat × Nat) (scan : List (String × StatR)) :
    dlookup k (buildPathGroups scan) =
      if pathsInScan k scan = [] then none else some (pathsInScan k scan) := by
  have := dlookup_pathGroups_fold k scan []
  simpa [buildPathGroups, dlookup] using this

theorem dlookup_statMap_fold (k : Nat × Nat) (scan : List (String × StatR)) :
    ∀ m₀ : List ((Nat × Nat) × StatR),
      dlookup k (scan.foldl (fun m e => dinsert m (inodeKey e.2) e.2) m₀) =
        match lastStatIn k scan with
        | some st => some st
        | none => dlookup k m₀ := by
  induction scan with
  | nil => intro m₀; simp [lastStatIn]
  | cons e es ih =>
    intro m₀
    simp only [List.foldl_cons]
    rw [ih]
    by_cases hk : inodeKey e.2 = k
    · simp only [lastStatIn, if_pos hk]
      cases h : lastStatIn k es with
      | some st => rfl
      | none => rw [dlookup_dinsert, if_pos hk]
    · simp only [lastStatIn, if_neg hk]
      cases h : lastStatIn k es with
      | some st => rfl
      | none => rw [dlookup_dinsert, if_neg hk]

theorem dlookup_buildStatMap (k : Nat × Nat) (scan : List (String × StatR)) :
    dlookup k (buildStatMap scan) = lastStatIn k scan := by
  have := dlookup_statMap_fold k scan []
  cases h : lastStatIn k scan <;> simp [buildStatMap, h, dlookup] at this ⊢ <;>
    exact this

theorem mem_keys_pathGroups_fold (k : Nat × Nat) (scan : List (String × StatR)) :
    ∀ m₀ : List ((Nat × Nat) × List String),
      k ∈ ((scan.foldl (fun m e => dappend m (inodeKey e.2) e.1) m₀).map (·.1)) ↔
        k ∈ m₀.map (·.1) ∨ k ∈ scan.map (fun e => inodeKey e.2) := by
  induction scan with
  | nil => intro m₀; simp
  | cons e es ih =>
    intro m₀
    simp only [List.foldl_cons, List.map_cons, List.mem_cons]
    rw [ih, mem_keys_dappend]
    tauto

theorem mem_keys_buildPathGroups (k : Nat × Nat) (scan : List (String × StatR)) :
    k ∈ ((buildPathGroups scan).map (·.1)) ↔
      k ∈ scan.map (fun e => inodeKey e.2) := by
  have := mem_keys_pathGroups_fold k scan []
  simpa [buildPathGroups] using this

theorem nodup_keys_pathGroups_fold (scan : List (String × StatR)) :
    ∀ m₀ : List ((Nat × Nat) × List String),
      (m₀.map (·.1)).Nodup →
      ((scan.foldl (fun m e => dappend m (inodeKey e.2) e.1) m₀).map (·.1)).Nodup := by
  induction scan with
  | nil => intro m₀ h; simpa using h
  | cons e es ih =>
    intro m₀ h
    simp only [List.foldl_cons]
    exact ih _ (nodup_keys_dappend m₀ _ _ h)

theorem nodup_keys_buildPathGroups (scan : List (String × StatR)) :
    ((buildPathGroups scan).map (·.1)).Nodup :=
  nodup_keys_pathGroups_fold scan [] (by simp)

theorem mem_flatten_dinsert_present {α β : Type} [DecidableEq α]
    (p : β) (k : α) (v : β) (vs : List β) :
    ∀ m : List (α × List β), dlookup k m = some vs →
      (p ∈ ((dinsert m k (vs ++ [v])).map (·.2)).flatten ↔
        p = v ∨ p ∈ (m.map (·.2)).flatten) := by
  intro m
  induction m with
  | nil => intro h; simp [dlookup] at h
  | cons e es ih =>
    intro h
    simp only [dlookup] at h
    by_cases he : e.1 = k
    · rw [if_pos he] at h
      have hv : e.2 = vs := by injection h
      simp only [dinsert, if_pos he, List.map_cons, List.flatten_cons,
        List.mem_append, List.mem_cons, List.mem_singleton, hv]
      tauto
    · rw [if_neg he] at h
      simp only [dinsert, if_neg he, List.map_cons, List.flatten_cons,
        List.mem_append, ih h]
      tauto

theorem mem_flatten_dappend {α β : Type} [DecidableEq α]
    (p : β) (m : List (α × List β)) (k : α) (v : β) :
    p ∈ ((dappend m k v).map (·.2)).flatten ↔
      p = v ∨ p ∈ (m.map (·.2)).flatten := by
  unfold dappend
  cases hm : dlookup k m with
  | some vs => exact mem_flatten_dinsert_present p k v vs m hm
  | none =>
    simp only [List.map_append, List.map_cons, List.map_nil, List.flatten_append,
      List.mem_append]
    simp only [List.flatten_cons, List.flatten_nil, List.append_nil,
      List.mem_singleton]
    tauto

theorem mem_flatten_pathGroups_fold (p : String) (scan : List (String × StatR)) :
    ∀ m₀ : List ((Nat × Nat) × List String),
      p ∈ (((scan.foldl (fun m e => dappend m (inodeKey e.2) e.1) m₀)).map (·.2)).flatten ↔
        p ∈ (m₀.map (·.2)).flatten ∨ p ∈ scan.map (·.1) := by
  induction scan with
  | nil => intro m₀; simp
  | cons e es ih =>
    intro m₀
    simp only [List.foldl_cons, List.map_cons, List.mem_cons]
    rw [ih, mem_flatten_dappend]
    tauto

theorem mem_flatten_buildPathGroups (p : String) (scan : List (String × StatR)) :
    p ∈ ((buildPathGroups scan).map (·.2)).flatten ↔ p ∈ scan.map (·.1) := by
  have := mem_flatten_pathGroups_fold p scan []
  simpa [buildPathGroups] using this

theorem mem_dedupFirstAux {α : Type} [DecidableEq α] (a : α) (l : List α) :
    ∀ seen : List α, a ∈ dedupFirstAux seen l ↔ a ∈ l ∧ a ∉ seen := by
  induction l with
  | nil => intro seen; simp [dedupFirstAux]
  | cons x xs ih =>
    intro seen
    simp only [dedupFirstAux]
    by_cases hx : x ∈ seen
    · rw [if_pos hx, ih]
      simp only [List.mem_cons]
      constructor
      · rintro ⟨h1, h2⟩; exact ⟨Or.inr h1, h2⟩
      · rintro ⟨h1 | h1, h2⟩
        · exact absurd (h1 ▸ hx) h2
        · exact ⟨h1, h2⟩
    · rw [if_neg hx]
      constructor
      · intro h
        rcases List.mem_cons.1 h with h | h
        · exact ⟨List.mem_cons.2 (Or.inl h), h ▸ hx⟩
        · obtain ⟨h1, h2⟩ := (ih (x :: seen)).1 h
          exact ⟨List.mem_cons.2 (Or.inr h1),
            fun hs => h2 (List.mem_cons.2 (Or.inr hs))⟩
      · rintro ⟨hm, hns⟩
        by_cases hax : a = x
        · exact List.mem_cons.2 (Or.inl hax)
        · rcases List.mem_cons.1 hm with h | h
          · exact absurd h hax
          · refine List.mem_cons.2 (Or.inr ((ih (x :: seen)).2 ⟨h, ?_⟩))
            intro hs
            rcases List.mem_cons.1 hs with h' | h'
            · exact hax h'
            · exact hns h'

theorem mem_dedupFirst {α : Type} [DecidableEq α] (l : List α) (a : α) :
    a ∈ dedupFirst l ↔ a ∈ l := by
  rw [dedupFirst, mem_dedupFirstAux]
  simp

theorem lastStatIn_isSome_of_mem (k : Nat × Nat) (scan : List (String × StatR))
    (h : k ∈ scan.map fun e => inodeKey e.2) : lastStatIn k scan ≠ none := by
  induction scan with
  | nil => simp at h
  | cons e es ih =>
    simp only [List.map_cons, List.mem_cons] at h
    simp only [lastStatIn]
    by_cases hk : inodeKey e.2 = k
    · rw [if_pos hk]
      cases lastStatIn k es <;> simp
    · rw [if_neg hk]
      rcases h with h | h
      · exact absurd h.symm hk
      · exact ih h

theorem mem_of_lastStatIn_isSome (k : Nat × Nat) (scan : List (String × StatR))
    (st : StatR) (h : lastStatIn k scan = some st) :
    k ∈ scan.map fun e => inodeKey e.2 := by
  induction scan with
  | nil => simp [lastStatIn] at h
  | cons e es ih =>
    simp only [lastStatIn] at h
    simp only [List.map_cons, List.mem_cons]
    by_cases hk : inodeKey e.2 = k
    · exact Or.inl hk.symm
    · rw [if_neg hk] at h
      exact Or.inr (ih h)

theorem mem_pathsInScan (p : String) (k : Nat × Nat)
    (scan : List (String × StatR)) :
    p ∈ pathsInScan k scan ↔ ∃ s, (p, s) ∈ scan ∧ inodeKey s = k := by
  simp only [pathsInScan, List.mem_map, List.mem_filter, decide_eq_true_eq]
  constructor
  · rintro ⟨e, ⟨he, hk⟩, hp⟩
    refine ⟨e.2, ?_, hk⟩
    rw [← hp]
    simpa using he
  · rintro ⟨s, hs, hk⟩
    exact ⟨(p, s), ⟨hs, hk⟩, rfl⟩

theorem pathsInScan_ne_nil_iff (k : Nat × Nat) (scan : List (String × StatR)) :
    pathsInScan k scan ≠ [] ↔ k ∈ scan.map fun e => inodeKey e.2 := by
  constructor
  · intro h
    cases hp : pathsInScan k scan with
    | nil => exact absurd hp h
    | cons p ps =>
      have : p ∈ pathsInScan k scan := by rw [hp]; exact List.mem_cons_self _ _
      obtain ⟨s, hs, hk⟩ := (mem_pathsInScan p k scan).1 this
      exact List.mem_map.2 ⟨(p, s), hs, hk⟩
  · intro h hnil
    obtain ⟨e, he, hk⟩ := List.mem_map.1 h
    have : e.1 ∈ pathsInScan k scan :=
      (mem_pathsInScan e.1 k scan).2 ⟨e.2, by simpa using he, hk⟩
    rw [hnil] at this
    simp at this

theorem mem_insertSorted (p x : String) (l : List String) :
    p ∈ insertSorted x l ↔ p = x ∨ p ∈ l := by
  induction l with
  | nil => simp [insertSorted]
  | cons y ys ih =>
    simp only [insertSorted]
    by_cases hxy : x ≤ y
    · simp [hxy]
    · simp only [if_neg hxy, List.mem_cons, ih]
      tauto

theorem mem_pySorted (p : String) (l : List String) :
    p ∈ pySorted l ↔ p ∈ l := by
  induction l with
  | nil => simp [pySorted]
  | cons x xs ih =>
    simp only [pySorted, List.foldr_cons] at ih ⊢
    rw [mem_insertSorted, ih, List.mem_cons]

/-! ## C1: complete-object deletion (variant A) selection -/

/-- **C1.** Variant-A selection: an inode scanned under the target directory
is selected iff its `st_nlink` equals the number of in-directory paths
discovered for it; when the link count exceeds that number (some hardlink
lies outside the target directory), the inode is not selected and none of
its discovered paths is passed to `os.unlink` by `delete_variant_a`. -/
theorem variantA_selects_iff_links_equal_paths
    (xdev : Bool) (tp : String) (t : FNode) (k : Nat × Nat) (st : StatR)
    (hst : lastStatIn k (scanTarget xdev tp t) = some st)
    (hwf : ∀ e1 ∈ scanTarget xdev tp t, ∀ e2 ∈ scanTarget xdev tp t,
        e1.1 = e2.1 → e1.2 = e2.2) :
    (k ∈ (find_deletable_inodes_variant_a xdev tp t).1.map (·.1) ↔
      st.nlink = (pathsInScan k (scanTarget xdev tp t)).length) ∧
    ((pathsInScan k (scanTarget xdev tp t)).length < st.nlink →
      k ∉ (find_deletable_inodes_variant_a xdev tp t).1.map (·.1) ∧
      ∀ p ∈ pathsInScan k (scanTarget xdev tp t),
        p ∉ (delete_variant_a tp t true false xdev "").unlinked) := by
  set scan := scanTarget xdev tp t with hscan
  have hiff : k ∈ (find_deletable_inodes_variant_a xdev tp t).1.map (·.1) ↔
      st.nlink = (pathsInScan k scan).length := by
    constructor
    · intro hmem
      obtain ⟨x, hx, hxk⟩ := List.mem_map.1 hmem
      simp only [find_deletable_inodes_variant_a, List.mem_filterMap] at hx
      obtain ⟨kv, hkv, hf⟩ := hx
      cases hlook : dlookup kv.1 (buildStatMap scan) with
      | none => rw [hlook] at hf; simp at hf
      | some st' =>
        rw [hlook] at hf
        simp only [Option.some_bind] at hf
        by_cases hn : st'.nlink = kv.2.length
        · rw [if_pos hn] at hf
          have hfe : (kv.1, pySorted kv.2) = x := by injection hf
          have hx1 : x.1 = kv.1 := by rw [← hfe]
          have hk : kv.1 = k := by rw [← hx1, hxk]
          rw [hk] at hlook
          rw [dlookup_buildStatMap, hst] at hlook
          have hst' : st' = st := by injection hlook with h'; exact h'.symm
          have hkeys := nodup_keys_buildPathGroups scan
          have hkv2 : dlookup kv.1 (buildPathGroups scan) = some kv.2 :=
            dlookup_eq_of_mem_nodup _ _ _ hkeys hkv
          rw [hk, dlookup_buildPathGroups] at hkv2
          by_cases hnil : pathsInScan k scan = []
          · rw [if_pos hnil] at hkv2; exact absurd hkv2 (by simp)
          · rw [if_neg hnil] at hkv2
            have : kv.2 = pathsInScan k scan := by
              injection hkv2 with h'; exact h'.symm
            rw [hst', this] at hn
            exact hn
        · rw [if_neg hn] at hf; simp at hf
    · intro hn
      have hkmem : k ∈ scan.map fun e => inodeKey e.2 :=
        mem_of_lastStatIn_isSome k scan st hst
      have hnil : pathsInScan k scan ≠ [] :=
        (pathsInScan_ne_nil_iff k scan).2 hkmem
      have hgrp : (k, pathsInScan k scan) ∈ buildPathGroups scan := by
        apply mem_of_dlookup_eq_some
        rw [dlookup_buildPathGroups, if_neg hnil]
      refine List.mem_map.2 ⟨(k, pySorted (pathsInScan k scan)), ?_, rfl⟩
      simp only [find_deletable_inodes_variant_a, List.mem_filterMap]
      refine ⟨(k, pathsInScan k scan), hgrp, ?_⟩
      rw [dlookup_buildStatMap, hst]
      simp only [Option.some_bind]
      rw [if_pos hn]
  refine ⟨hiff, fun hlt => ?_⟩
  have hne : ¬ st.nlink = (pathsInScan k scan).length := by omega
  have hnot : k ∉ (find_deletable_inodes_variant_a xdev tp t).1.map (·.1) :=
    fun h => hne (hiff.1 h)
  refine ⟨hnot, fun p hp hdel => ?_⟩
  -- p was unlinked: find which selected inode group listed it
  have hun : (delete_variant_a tp t true false xdev "").unlinked =
      if (find_deletable_inodes_variant_a xdev tp t).1.length = 0 then []
      else (((find_deletable_inodes_variant_a xdev tp t).1).map (·.2)).flatten := by
    simp only [delete_variant_a]
    by_cases hz : (find_deletable_inodes_variant_a xdev tp t).1.length = 0
    · simp [hz]
    · simp [hz]
  rw [hun] at hdel
  by_cases hz : (find_deletable_inodes_variant_a xdev tp t).1.length = 0
  · rw [if_pos hz] at hdel; simp at hdel
  · rw [if_neg hz] at hdel
    obtain ⟨ps, hps, hpin⟩ := List.mem_flatten.1 hdel
    obtain ⟨kv, hkv, hkv2⟩ := List.mem_map.1 hps
    simp only [find_deletable_inodes_variant_a, List.mem_filterMap] at hkv
    obtain ⟨kv', hkv', hf⟩ := hkv
    cases hlook : dlookup kv'.1 (buildStatMap scan) with
    | none => rw [hlook] at hf; simp at hf
    | some st' =>
      rw [hlook] at hf
      simp only [Option.some_bind] at hf
      by_cases hn : st'.nlink = kv'.2.length
      · rw [if_pos hn] at hf
        have hfe : (kv'.1, pySorted kv'.2) = kv := by injection hf
        have hkv1 : kv.1 = kv'.1 := by rw [← hfe]
        have hkvsnd : kv.2 = pySorted kv'.2 := by rw [← hfe]
        -- p lies in the sorted path list of the selected group kv'
        rw [← hkv2] at hpin
        rw [hkvsnd] at hpin
        rw [mem_pySorted] at hpin
        -- kv'.2 is the path list of inode kv'.1
        have hkeys := nodup_keys_buildPathGroups scan
        have hlk : dlookup kv'.1 (buildPathGroups scan) = some kv'.2 :=
          dlookup_eq_of_mem_nodup _ _ _ hkeys hkv'
        rw [dlookup_buildPathGroups] at hlk
        by_cases hnil : pathsInScan kv'.1 scan = []
        · rw [if_pos hnil] at hlk; exact absurd hlk (by simp)
        · rw [if_neg hnil] at hlk
          have hkv'2 : kv'.2 = pathsInScan kv'.1 scan := by
            injection hlk with h'; exact h'.symm
          rw [hkv'2] at hpin
          obtain ⟨s1, hs1, hks1⟩ := (mem_pathsInScan p k scan).1 hp
          obtain ⟨s2, hs2, hks2⟩ := (mem_pathsInScan p kv'.1 scan).1 hpin
          have : s1 = s2 := hwf (p, s1) hs1 (p, s2) hs2 rfl
          have hkk : kv'.1 = k := by rw [← hks2, ← this, hks1]
          -- so k would be a selected key after all
          apply hnot
          refine List.mem_map.2 ⟨(kv'.1, pySorted kv'.2), ?_, hkk⟩
          simp only [find_deletable_inodes_variant_a, List.mem_filterMap]
          refine ⟨kv', hkv', ?_⟩
          rw [hlook]
          simp only [Option.some_bind]
          rw [if_pos hn]
      · rw [if_neg hn] at hf; simp at hf

/-- Witness for C1 at a concrete filesystem: `/d` holds `a`,`b` hardlinked
(link count 2), `c` unique (link count 1) and `e` whose second hardlink lies
outside `/d` (link count 2, one in-directory path). -/
theorem variantA_selects_iff_links_equal_paths_witness :
    ((1, 12) ∈ (find_deletable_inodes_variant_a true "/d"
        (.dir "d" ⟨1, 1, 4096, 8, 2⟩
          [.file "a" ⟨1, 10, 4096, 8, 2⟩, .file "b" ⟨1, 10, 4096, 8, 2⟩,
           .file "c" ⟨1, 11, 4096, 8, 1⟩, .file "e" ⟨1, 12, 100, 8, 2⟩])).1.map
        (·.1) ↔
      (2 : Nat) = (pathsInScan (1, 12) (scanTarget true "/d"
        (.dir "d" ⟨1, 1, 4096, 8, 2⟩
          [.file "a" ⟨1, 10, 4096, 8, 2⟩, .file "b" ⟨1, 10, 4096, 8, 2⟩,
           .file "c" ⟨1, 11, 4096, 8, 1⟩, .file "e" ⟨1, 12, 100, 8, 2⟩]))).length) := by
  have h := variantA_selects_iff_links_equal_paths true "/d"
    (.dir "d" ⟨1, 1, 4096, 8, 2⟩
      [.file "a" ⟨1, 10, 4096, 8, 2⟩, .file "b" ⟨1, 10, 4096, 8, 2⟩,
       .file "c" ⟨1, 11, 4096, 8, 1⟩, .file "e" ⟨1, 12, 100, 8, 2⟩])
    (1, 12) ⟨1, 12, 100, 8, 2⟩ (by decide) (by decide)
  exact h.1

/-! ## C2: global purge unlinks exactly the discovered paths -/

theorem mem_hitFilesOf_key (xdev : Bool) (rootDev : Nat)
    (inodes : List (Nat × Nat)) (base : String) (cs : List FNode)
    (e : String × StatR) (he : e ∈ hitFilesOf xdev rootDev inodes base cs) :
    inodeKey e.2 ∈ inodes := by
  simp only [hitFilesOf, List.mem_filterMap] at he
  obtain ⟨c, hc, hf⟩ := he
  cases c with
  | file n st =>
    have hf' : (if xdev && !(st.dev = rootDev) then none
        else if inodeKey st ∈ inodes then some (joinPath base n, st)
        else none) = some e := hf
    by_cases h1 : xdev && !(st.dev = rootDev)
    · rw [if_pos h1] at hf'; exact absurd hf' (by simp)
    · rw [if_neg h1] at hf'
      by_cases h2 : inodeKey st ∈ inodes
      · rw [if_pos h2] at hf'
        have he : (joinPath base n, st) = e := by injection hf'
        have he2 : e.2 = st := by rw [← he]
        rwa [he2]
      · rw [if_neg h2] at hf'; exact absurd hf' (by simp)
  | sym n st => exact absurd hf (by simp)
  | oth n st => exact absurd hf (by simp)
  | dir n st sub => exact absurd hf (by simp)

mutual

theorem mem_walkHitDirs_key (xdev : Bool) (rootDev : Nat)
    (inodes : List (Nat × Nat)) :
    ∀ (base : String) (cs : List FNode) (e : String × StatR),
      e ∈ walkHitDirs xdev rootDev inodes base cs → inodeKey e.2 ∈ inodes
  | _, [], e, he => by simp [walkHitDirs] at he
  | base, c :: cs, e, he => by
    rw [walkHitDirs] at he
    rcases List.mem_append.1 he with h | h
    · exact mem_walkHitEnter_key xdev rootDev inodes base c e h
    · exact mem_walkHitDirs_key xdev rootDev inodes base cs e h

theorem mem_walkHitEnter_key (xdev : Bool) (rootDev : Nat)
    (inodes : List (Nat × Nat)) :
    ∀ (base : String) (c : FNode) (e : String × StatR),
      e ∈ walkHitEnter xdev rootDev inodes base c → inodeKey e.2 ∈ inodes
  | _, .file _ _, e, he => by simp [walkHitEnter] at he
  | _, .sym _ _, e, he => by simp [walkHitEnter] at he
  | _, .oth _ _, e, he => by simp [walkHitEnter] at he
  | base, .dir n st sub, e, he => by
    rw [walkHitEnter] at he
    by_cases h1 : xdev && !(st.dev = rootDev)
    · rw [if_pos h1] at he; simp at he
    · rw [if_neg h1] at he
      rcases List.mem_append.1 he with h | h
      · exact mem_hitFilesOf_key xdev rootDev inodes (joinPath base n) sub e h
      · exact mem_walkHitDirs_key xdev rootDev inodes (joinPath base n) sub e h

end

theorem mem_find_all_paths_key (xdev : Bool) (inodes : List (Nat × Nat))
    (frp : String) (tR : FNode) (e : String × StatR)
    (he : e ∈ find_all_paths_for_inodes xdev inodes frp tR) :
    inodeKey e.2 ∈ inodes := by
  cases tR with
  | dir n st cs =>
    simp only [find_all_paths_for_inodes] at he
    rcases List.mem_append.1 he with h | h
    · exact mem_hitFilesOf_key xdev st.dev inodes frp cs e h
    · exact mem_walkHitDirs_key xdev st.dev inodes frp cs e h
  | file n st => simp [find_all_paths_for_inodes] at he
  | sym n st => simp [find_all_paths_for_inodes] at he
  | oth n st => simp [find_all_paths_for_inodes] at he

theorem find_all_paths_nil_inodes (xdev : Bool) (frp : String) (tR : FNode) :
    find_all_paths_for_inodes xdev [] frp tR = [] := by
  rw [List.eq_nil_iff_forall_not_mem]
  intro e he
  have := mem_find_all_paths_key xdev [] frp tR e he
  simp at this

theorem foldl_statLookup_sum (statm : List ((Nat × Nat) × StatR))
    (hits : List ((Nat × Nat) × List String))
    (hcov : ∀ kv ∈ hits, dlookup kv.1 statm ≠ none) :
    hits.foldl (fun a kv => (dlookup kv.1 statm).elim a fun st => a + usageR st) 0 =
      (hits.map fun kv => usageR ((dlookup kv.1 statm).getD ⟨0, 0, 0, 0, 0⟩)).sum := by
  suffices h : ∀ a, hits.foldl
      (fun a kv => (dlookup kv.1 statm).elim a fun st => a + usageR st) a =
      a + (hits.map fun kv => usageR ((dlookup kv.1 statm).getD ⟨0, 0, 0, 0, 0⟩)).sum by
    simpa using h 0
  induction hits with
  | nil => intro a; simp
  | cons kv rest ih =>
    intro a
    have hcov' : ∀ kv ∈ rest, dlookup kv.1 statm ≠ none :=
      fun kv h => hcov kv (List.mem_cons_of_mem _ h)
    cases hlk : dlookup kv.1 statm with
    | none => exact absurd hlk (hcov kv (List.mem_cons_self _ _))
    | some st =>
      simp only [List.foldl_cons, List.map_cons, List.sum_cons, hlk,
        Option.elim_some, Option.getD_some]
      rw [ih hcov']
      omega

/-- **C2.** Global purge on a target directory: with confirmation granted and
dry-run off, the operation passes to `os.unlink` exactly the paths discovered
for the collected inodes anywhere under the filesystem root, and the
freed-byte estimate sums each discovered inode's disk usage exactly once
(once per entry of the hit dictionary, whose keys are free of duplicates),
independent of how many paths an inode has. -/
theorem purge_unlinks_exactly_discovered
    (xdev : Bool) (tp frp : String) (tT tR : FNode) :
    (∀ p, p ∈ (purge_hardlink_groups_globally tp frp tT tR true false xdev "").unlinked ↔
      p ∈ (find_all_paths_for_inodes xdev (collect_target_inodes xdev tp tT).1 frp tR).map (·.1)) ∧
    (((buildPathGroups (find_all_paths_for_inodes xdev
        (collect_target_inodes xdev tp tT).1 frp tR)).map (·.1)).Nodup) ∧
    (∀ k, k ∈ (buildPathGroups (find_all_paths_for_inodes xdev
        (collect_target_inodes xdev tp tT).1 frp tR)).map (·.1) ↔
      k ∈ (find_all_paths_for_inodes xdev
        (collect_target_inodes xdev tp tT).1 frp tR).map fun e => inodeKey e.2) ∧
    (purge_hardlink_groups_globally tp frp tT tR true false xdev "").freed =
      ((buildPathGroups (find_all_paths_for_inodes xdev
          (collect_target_inodes xdev tp tT).1 frp tR)).map fun kv =>
        usageR ((dlookup kv.1 (collect_target_inodes xdev tp tT).2).getD
          ⟨0, 0, 0, 0, 0⟩)).sum := by
  set inodes := (collect_target_inodes xdev tp tT).1 with hinodes
  set statm := (collect_target_inodes xdev tp tT).2 with hstatm
  set flat := find_all_paths_for_inodes xdev inodes frp tR with hflat
  set hits := buildPathGroups flat with hhits
  have hkeysnodup : (hits.map (·.1)).Nodup := nodup_keys_buildPathGroups flat
  have hkeys : ∀ k, k ∈ hits.map (·.1) ↔ k ∈ flat.map fun e => inodeKey e.2 :=
    fun k => mem_keys_buildPathGroups k flat
  have hcov : ∀ kv ∈ hits, dlookup kv.1 statm ≠ none := by
    intro kv hkv
    have hk1 : kv.1 ∈ hits.map (·.1) := List.mem_map.2 ⟨kv, hkv, rfl⟩
    have hk2 : kv.1 ∈ flat.map fun e => inodeKey e.2 := (hkeys kv.1).1 hk1
    obtain ⟨e, he, hek⟩ := List.mem_map.1 hk2
    have hkin : kv.1 ∈ inodes := hek ▸ mem_find_all_paths_key xdev inodes frp tR e he
    have hscan : kv.1 ∈ (scanTarget xdev tp tT).map fun e => inodeKey e.2 := by
      have := (mem_dedupFirst ((scanTarget xdev tp tT).map fun e => inodeKey e.2) kv.1).1
      exact this (by simpa [collect_target_inodes] using hkin)
    rw [hstatm]
    simp only [collect_target_inodes]
    rw [dlookup_buildStatMap]
    exact lastStatIn_isSome_of_mem kv.1 (scanTarget xdev tp tT) hscan
  -- unfold the operation once
  by_cases hempty : inodes.isEmpty
  · have hnil : inodes = [] := List.isEmpty_iff.1 hempty
    have hflatnil : flat = [] := by rw [hflat, hnil]; exact find_all_paths_nil_inodes xdev frp tR
    have hrun : purge_hardlink_groups_globally tp frp tT tR true false xdev "" =
        ⟨[], 0, (0, 0, 0), []⟩ := by
      simp only [purge_hardlink_groups_globally, ← hinodes, hempty]
      simp
    refine ⟨?_, hkeysnodup, hkeys, ?_⟩
    · intro p
      rw [hrun, hflatnil]
      simp
    · have hhitnil : hits = [] := by rw [hhits, hflatnil]; rfl
      rw [hrun, hhitnil]
      simp
  · have hfreed : hits.foldl
        (fun a kv => (dlookup kv.1 statm).elim a fun st => a + usageR st) 0 =
        (hits.map fun kv => usageR ((dlookup kv.1 statm).getD ⟨0, 0, 0, 0, 0⟩)).sum :=
      foldl_statLookup_sum statm hits hcov
    by_cases hhit : hits.isEmpty
    · have hhitnil : hits = [] := List.isEmpty_iff.1 hhit
      have hflatnil : flat.map (·.1) = [] := by
        rw [List.eq_nil_iff_forall_not_mem]
        intro p hp
        obtain ⟨e, he, hep⟩ := List.mem_map.1 hp
        have : inodeKey e.2 ∈ flat.map fun e => inodeKey e.2 :=
          List.mem_map.2 ⟨e, he, rfl⟩
        have := (hkeys (inodeKey e.2)).2 this
        rw [hhitnil] at this
        simp at this
      have hrun : purge_hardlink_groups_globally tp frp tT tR true false xdev "" =
          ⟨[], (hits.foldl (fun a kv => (dlookup kv.1 statm).elim a fun st => a + usageR st) 0),
            (0, 0, 0), []⟩ := by
        simp only [purge_hardlink_groups_globally, ← hinodes, ← hstatm, ← hflat, ← hhits]
        rw [if_neg (by simpa using hempty), if_pos hhit]
      refine ⟨?_, hkeysnodup, hkeys, ?_⟩
      · intro p
        rw [hrun, hflatnil]
      · rw [hrun, hfreed]
    · have hrun : purge_hardlink_groups_globally tp frp tT tR true false xdev "" =
          ⟨(hits.map (·.2)).flatten,
            (hits.foldl (fun a kv => (dlookup kv.1 statm).elim a fun st => a + usageR st) 0),
            (hits.length, (hits.map (·.2)).flatten.length,
              (hits.foldl (fun a kv => (dlookup kv.1 statm).elim a fun st => a + usageR st) 0)),
            (hits.map (·.2)).flatten⟩ := by
        simp only [purge_hardlink_groups_globally, ← hinodes, ← hstatm, ← hflat, ← hhits]
        rw [if_neg (by simpa using hempty), if_neg (by simpa using hhit)]
        simp
      refine ⟨?_, hkeysnodup, hkeys, ?_⟩
      · intro p
        rw [hrun]
        exact mem_flatten_buildPathGroups p flat
      · rw [hrun, hfreed]

/-! ## C4: disk-usage formula -/

/-- **C4, counterexample.**  The claim's formula says a file whose reported
block count is `0` yields usage `0` under block accounting; the code falls
back to the nominal size instead: for `st_blocks = 0, st_size = 100` the
code returns `100`, not `max(0,0)*512 = 0`. -/
theorem file_disk_usage_zero_blocks_counterexample :
    file_disk_usage ⟨some 0, 100⟩ = 100 ∧
    usage_spec_claim ⟨some 0, 100⟩ = 0 ∧
    file_disk_usage ⟨some 0, 100⟩ ≠ usage_spec_claim ⟨some 0, 100⟩ := by
  decide

/-- **C4, amended.**  Disk usage equals `reported_block_count * 512` when a
block-count field is available AND strictly positive, and the nominal size
otherwise — in particular a zero block count falls back to the nominal
size. -/
theorem file_disk_usage_matches_amended_spec (st : PyStat) :
    file_disk_usage st = usage_spec_amended st := rfl

/-! ## `dir_size` (lines 48-126): breadth-first bounded-depth aggregation

The scan loop pops `(current, d)` from a FIFO deque, stats every entry of
`current`, adds each entry's contribution to `size_map[current]` (regular
files only when their `(st_dev, st_ino)` was not seen before — one `seen`
set shared by the whole traversal), and enqueues subdirectories while
`d < depth`.  A FIFO queue in which each popped directory appends its
subdirectories processes the tree level by level, so the visit sequence is
the concatenation of per-level scans, which is how we generate it. -/

/-- One visit event: the directory being scanned, whether the entry is a
regular file (subject to inode dedup), and the entry's stat. -/
structure Ev where
  dir : String
  isReg : Bool
  st : StatR
deriving DecidableEq, Repr

/-- Per-entry handling of the scan loop (lines 77-115): an entry on another
device is skipped entirely when `xdev`; symlinks, directories and other
entries always contribute; regular files are marked for dedup. -/
def entryEv (xdev : Bool) (rootDev : Nat) (curdir : String) (c : FNode) :
    Option Ev :=
  if xdev && !(c.st.dev = rootDev) then none
  else
    match c with
    | .file _ st => some ⟨curdir, true, st⟩
    | .sym _ st => some ⟨curdir, false, st⟩
    | .oth _ st => some ⟨curdir, false, st⟩
    | .dir _ st _ => some ⟨curdir, false, st⟩

/-- The subdirectories a scanned directory appends to the queue
(lines 98-103); a subdirectory on another device was already skipped. -/
def subdirsOf (xdev : Bool) (rootDev : Nat) (curdir : String) :
    List FNode → List (String × List FNode)
  | [] => []
  | .dir n st sub :: cs =>
    if xdev && !(st.dev = rootDev) then subdirsOf xdev rootDev curdir cs
    else (joinPath curdir n, sub) :: subdirsOf xdev rootDev curdir cs
  | .file _ _ :: cs => subdirsOf xdev rootDev curdir cs
  | .sym _ _ :: cs => subdirsOf xdev rootDev curdir cs
  | .oth _ _ :: cs => subdirsOf xdev rootDev curdir cs

/-- The visit events of the whole traversal, level by level;
`depthLeft = depth - d` counts the remaining levels that may still enqueue
subdirectories (`if d < depth`). -/
def bfsEvents (xdev : Bool) (rootDev : Nat) :
    Nat → List (String × List FNode) → List Ev
  | 0, frontier =>
    frontier.flatMap fun pc => pc.2.filterMap (entryEv xdev rootDev pc.1)
  | dl + 1, frontier =>
    (frontier.flatMap fun pc => pc.2.filterMap (entryEv xdev rootDev pc.1)) ++
      bfsEvents xdev rootDev dl
        (frontier.flatMap fun pc => subdirsOf xdev rootDev pc.1 pc.2)

/-- The contribution of one entry:
`file_disk_usage(st) if not apparent else st.st_size` (every branch of the
loop uses this same formula). -/
def contrib (apparent : Bool) (st : StatR) : Nat :=
  if apparent then st.size else usageR st

/-- The mutable state of the scan: `size_map` (a `defaultdict(int)` keyed by
directory path) and the traversal-wide `seen_inodes` set. -/
structure SizeState where
  sizeMap : List (String × Nat)
  seen : List (Nat × Nat)
deriving Repr

/-- One iteration of the entry loop: `size_map[current] += contribution`,
with regular files skipped when their inode was already seen and recorded
into `seen_inodes` otherwise (lines 104-111). -/
def stepEv (apparent : Bool) (s : SizeState) (e : Ev) : SizeState :=
  if e.isReg then
    if inodeKey e.st ∈ s.seen then s
    else ⟨dbump s.sizeMap e.dir (contrib apparent e.st), inodeKey e.st :: s.seen⟩
  else ⟨dbump s.sizeMap e.dir (contrib apparent e.st), s.seen⟩

/-- The visit events `dir_size(root, depth, ...)` processes. -/
def dirSizeEvents (rootPath : String) (t : FNode) (depth : Nat) (xdev : Bool) :
    List Ev :=
  match t with
  | .dir _ st cs => bfsEvents xdev st.dev depth [(rootPath, cs)]
  | _ => []

/-- `dir_size` (lines 48-126): returns `list(size_map.items())` after the
scan.  A non-directory root raises `NotADirectoryError` inside the loop and
yields an empty map. -/
def dir_size (rootPath : String) (t : FNode) (depth : Nat)
    (apparent xdev : Bool) : List (String × Nat) :=
  ((dirSizeEvents rootPath t depth xdev).foldl (stepEv apparent)
    ⟨[], []⟩).sizeMap

/-- The same aggregation without any inode dedup (reference function for the
statement of C3). -/
def stepEvNoDedup (apparent : Bool) (m : List (String × Nat)) (e : Ev) :
    List (String × Nat) :=
  dbump m e.dir (contrib apparent e.st)

/-- Keep only the first event of each regular-file inode; non-regular
events always stay. -/
def firstPerKey : List Ev → List (Nat × Nat) → List Ev
  | [], _ => []
  | e :: es, seen =>
    if e.isReg then
      if inodeKey e.st ∈ seen then firstPerKey es seen
      else e :: firstPerKey es (inodeKey e.st :: seen)
    else e :: firstPerKey es seen

/-- How many events of the list are regular-file events of inode `k`. -/
def countRegEv (k : Nat × Nat) (evs : List Ev) : Nat :=
  (evs.filter fun e => e.isReg && inodeKey e.st = k).length

theorem foldl_stepEv_eq_noDedup (apparent : Bool) (evs : List Ev) :
    ∀ (m : List (String × Nat)) (seen : List (Nat × Nat)),
      ((evs.foldl (stepEv apparent) ⟨m, seen⟩).sizeMap) =
        (firstPerKey evs seen).foldl (stepEvNoDedup apparent) m := by
  induction evs with
  | nil => intro m seen; simp [firstPerKey]
  | cons e es ih =>
    intro m seen
    simp only [List.foldl_cons, firstPerKey]
    cases hr : e.isReg with
    | true =>
      by_cases hs : inodeKey e.st ∈ seen
      · rw [if_pos rfl, if_pos hs]
        have hst : stepEv apparent ⟨m, seen⟩ e = ⟨m, seen⟩ := by
          simp [stepEv, hr, hs]
        rw [hst, ih]
      · rw [if_pos rfl, if_neg hs]
        have hst : stepEv apparent ⟨m, seen⟩ e =
            ⟨dbump m e.dir (contrib apparent e.st), inodeKey e.st :: seen⟩ := by
          simp [stepEv, hr, hs]
        rw [hst, ih]
        simp [stepEvNoDedup]
    | false =>
      rw [if_neg (by simp [hr])]
      have hst : stepEv apparent ⟨m, seen⟩ e =
          ⟨dbump m e.dir (contrib apparent e.st), seen⟩ := by
        simp [stepEv, hr]
      rw [hst, ih]
      simp [stepEvNoDedup]

theorem countRegEv_cons (k : Nat × Nat) (e : Ev) (l : List Ev) :
    countRegEv k (e :: l) =
      if e.isReg ∧ inodeKey e.st = k then countRegEv k l + 1
      else countRegEv k l := by
  simp only [countRegEv, List.filter_cons]
  by_cases h : e.isReg ∧ inodeKey e.st = k
  · rw [if_pos h]
    have : (e.isReg && decide (inodeKey e.st = k)) = true := by
      simp [h.1, h.2]
    simp [this]
  · rw [if_neg h]
    have : (e.isReg && decide (inodeKey e.st = k)) = false := by
      rcases not_and_or.1 h with h' | h'
      · simp [Bool.eq_false_iff.2 h']
      · simp [h']
    simp [this]

theorem countRegEv_firstPerKey (k : Nat × Nat) (evs : List Ev) :
    ∀ seen, countRegEv k (firstPerKey evs seen) =
      if k ∈ seen then 0 else min 1 (countRegEv k evs) := by
  induction evs with
  | nil =>
    intro seen
    by_cases h : k ∈ seen <;> simp [firstPerKey, countRegEv, h]
  | cons e es ih =>
    intro seen
    simp only [firstPerKey]
    by_cases hr : e.isReg = true
    · by_cases hs : inodeKey e.st ∈ seen
      · rw [if_pos hr, if_pos hs, ih seen, countRegEv_cons]
        by_cases hk : k ∈ seen
        · rw [if_pos hk, if_pos hk]
        · have hek : ¬ (e.isReg = true ∧ inodeKey e.st = k) :=
            fun h => hk (h.2 ▸ hs)
          rw [if_neg hk, if_neg hk, if_neg hek]
      · rw [if_pos hr, if_neg hs, countRegEv_cons, countRegEv_cons,
          ih (inodeKey e.st :: seen)]
        by_cases hek : inodeKey e.st = k
        · have hcand : e.isReg = true ∧ inodeKey e.st = k := ⟨hr, hek⟩
          have hks : k ∉ seen := fun h => hs (hek ▸ h)
          have hmem : k ∈ inodeKey e.st :: seen := by
            rw [hek]
            exact List.mem_cons_self _ _
          rw [if_pos hcand, if_pos hmem, if_neg hks, if_pos hcand]
          omega
        · have hcond : ¬ (e.isReg = true ∧ inodeKey e.st = k) :=
            fun h => hek h.2
          rw [if_neg hcond, if_neg hcond]
          have hmemeq : (k ∈ inodeKey e.st :: seen) = (k ∈ seen) := by
            apply propext
            rw [List.mem_cons]
            constructor
            · rintro (h | h)
              · exact absurd h.symm hek
              · exact h
            · exact Or.inr
          simp only [hmemeq]
    · have hcond : ¬ (e.isReg = true ∧ inodeKey e.st = k) := fun h => hr h.1
      rw [if_neg hr, countRegEv_cons, countRegEv_cons,
        if_neg hcond, if_neg hcond, ih seen]

/-- **C3.** One `dir_size` pass deduplicates by inode across the whole
traversal: the resulting size map equals the dedup-free aggregation of the
visit sequence restricted to the first event of every regular-file inode
(later hardlinked paths of the same inode — in whatever directory of the
same pass, sibling subtrees included — add nothing), and in that restricted
sequence every inode that occurs in the traversal occurs exactly once. -/
theorem dirSize_counts_each_inode_once (rootPath : String) (t : FNode)
    (depth : Nat) (apparent xdev : Bool) :
    dir_size rootPath t depth apparent xdev =
      (firstPerKey (dirSizeEvents rootPath t depth xdev) []).foldl
        (stepEvNoDedup apparent) [] ∧
    ∀ k, countRegEv k (firstPerKey (dirSizeEvents rootPath t depth xdev) []) =
      min 1 (countRegEv k (dirSizeEvents rootPath t depth xdev)) := by
  constructor
  · rw [dir_size]
    exact foldl_stepEv_eq_noDedup apparent (dirSizeEvents rootPath t depth xdev) [] []
  · intro k
    rw [countRegEv_firstPerKey]
    simp

/-! ## C7: which directories get an entry, and what lies beyond `max_depth` -/

theorem mem_keys_dbump (m : List (String × Nat)) (k k' : String) (v : Nat) :
    k' ∈ (dbump m k v).map (·.1) ↔ k' = k ∨ k' ∈ m.map (·.1) := by
  unfold dbump
  cases hm : dlookup k m with
  | some n => rw [mem_keys_dinsert]
  | none =>
    simp only [List.map_append, List.map_cons, List.map_nil, List.mem_append,
      List.mem_cons, List.not_mem_nil, or_false]
    tauto

theorem mem_keys_noDedupRun (apparent : Bool) (p : String) (evs : List Ev) :
    ∀ m : List (String × Nat),
      p ∈ (evs.foldl (stepEvNoDedup apparent) m).map (·.1) ↔
        p ∈ m.map (·.1) ∨ p ∈ evs.map (·.dir) := by
  induction evs with
  | nil => intro m; simp
  | cons e es ih =>
    intro m
    simp only [List.foldl_cons, List.map_cons, List.mem_cons, stepEvNoDedup]
    rw [ih, mem_keys_dbump]
    tauto

/-! Cutting the tree below the deepest stat'd level: `pruneN k` keeps a node
and `k` further levels of directory contents, emptying the children of
directories `k` levels down. -/

mutual

/-- Drop all directory contents more than `k` levels below this node. -/
def pruneN : Nat → FNode → FNode
  | _, .file n st => .file n st
  | _, .sym n st => .sym n st
  | _, .oth n st => .oth n st
  | 0, .dir n st _ => .dir n st []
  | k + 1, .dir n st cs => .dir n st (pruneL k cs)

/-- `pruneN` applied to each entry of a listing. -/
def pruneL : Nat → List FNode → List FNode
  | _, [] => []
  | k, c :: cs => pruneN k c :: pruneL k cs

end

/-- Drop everything more than `depth + 1` levels below the root: exactly the
entries `dir_size(root, depth)` never stats. -/
def pruneRoot (depth : Nat) : FNode → FNode
  | .dir n st cs => .dir n st (pruneL depth cs)
  | t => t

theorem entryEv_pruneN (xdev : Bool) (rd : Nat) (d : String) (k : Nat)
    (c : FNode) : entryEv xdev rd d (pruneN k c) = entryEv xdev rd d c := by
  cases k <;> cases c <;> rfl

theorem filterMap_entryEv_pruneL (xdev : Bool) (rd : Nat) (d : String)
    (k : Nat) : ∀ cs : List FNode,
      (pruneL k cs).filterMap (entryEv xdev rd d) =
        cs.filterMap (entryEv xdev rd d) := by
  intro cs
  induction cs with
  | nil => cases k <;> rfl
  | cons c rest ih =>
    simp only [pruneL, List.filterMap_cons, entryEv_pruneN, ih]

theorem subdirsOf_pruneL (xdev : Bool) (rd : Nat) (d : String) (k : Nat) :
    ∀ cs : List FNode,
      subdirsOf xdev rd d (pruneL (k + 1) cs) =
        (subdirsOf xdev rd d cs).map fun pc => (pc.1, pruneL k pc.2) := by
  intro cs
  induction cs with
  | nil => rfl
  | cons c rest ih =>
    cases c with
    | dir n st sub =>
      simp only [pruneL, pruneN, subdirsOf]
      by_cases h : (xdev && !(decide (st.dev = rd))) = true
      · rw [if_pos h, if_pos h, ih]
      · rw [if_neg h, if_neg h, ih, List.map_cons]
    | file n st => simp only [pruneL, pruneN, subdirsOf, ih]
    | sym n st => simp only [pruneL, pruneN, subdirsOf, ih]
    | oth n st => simp only [pruneL, pruneN, subdirsOf, ih]

theorem events_level_pruneL (xdev : Bool) (rd : Nat) (k : Nat) :
    ∀ frontier : List (String × List FNode),
      ((frontier.map fun pc => (pc.1, pruneL k pc.2)).flatMap fun pc =>
          pc.2.filterMap (entryEv xdev rd pc.1)) =
        frontier.flatMap fun pc => pc.2.filterMap (entryEv xdev rd pc.1) := by
  intro frontier
  induction frontier with
  | nil => rfl
  | cons pc rest ih =>
    simp only [List.map_cons, List.flatMap_cons]
    rw [filterMap_entryEv_pruneL, ih]

theorem subfrontier_pruneL (xdev : Bool) (rd : Nat) (k : Nat) :
    ∀ frontier : List (String × List FNode),
      ((frontier.map fun pc => (pc.1, pruneL (k + 1) pc.2)).flatMap fun pc =>
          subdirsOf xdev rd pc.1 pc.2) =
        (frontier.flatMap fun pc => subdirsOf xdev rd pc.1 pc.2).map
          fun pc => (pc.1, pruneL k pc.2) := by
  intro frontier
  induction frontier with
  | nil => rfl
  | cons pc rest ih =>
    simp only [List.map_cons, List.flatMap_cons, List.map_append]
    rw [subdirsOf_pruneL, ih]

theorem bfsEvents_prune (xdev : Bool) (rd : Nat) :
    ∀ (dl : Nat) (frontier : List (String × List FNode)),
      bfsEvents xdev rd dl (frontier.map fun pc => (pc.1, pruneL dl pc.2)) =
        bfsEvents xdev rd dl frontier
  | 0, frontier => by
    simp only [bfsEvents]
    exact events_level_pruneL xdev rd 0 frontier
  | dl + 1, frontier => by
    simp only [bfsEvents]
    rw [events_level_pruneL, subfrontier_pruneL,
      bfsEvents_prune xdev rd dl (frontier.flatMap fun pc =>
        subdirsOf xdev rd pc.1 pc.2)]

/-- **C7, amended.**  (i) `dir_size` lists a directory iff some entry of the
scan added a contribution inside it: its result's paths are exactly the
`dir` components of the dedup-filtered visit sequence — an empty directory
within `max_depth`, or one whose every entry is skipped, gets no entry.
(ii) Directories deeper than `max_depth` are never scanned: the result does
not change when every directory entry more than `max_depth + 1` levels below
the root has its contents removed, so deep contents contribute nothing to any
reported ancestor — only the directory entry's own stat (at depth
`max_depth + 1`) is counted in its parent's aggregate. -/
theorem dirSize_entries_and_depth_limit (rootPath : String) (t : FNode)
    (depth : Nat) (apparent xdev : Bool) :
    (∀ p, p ∈ (dir_size rootPath t depth apparent xdev).map (·.1) ↔
      p ∈ (firstPerKey (dirSizeEvents rootPath t depth xdev) []).map (·.dir)) ∧
    dir_size rootPath (pruneRoot depth t) depth apparent xdev =
      dir_size rootPath t depth apparent xdev := by
  constructor
  · intro p
    rw [dir_size, foldl_stepEv_eq_noDedup, mem_keys_noDedupRun]
    simp
  · cases t with
    | dir n st cs =>
      simp only [dir_size, dirSizeEvents, pruneRoot]
      have h := bfsEvents_prune xdev st.dev depth [(rootPath, cs)]
      simp only [List.map_cons, List.map_nil] at h
      rw [h]
    | file n st => rfl
    | sym n st => rfl
    | oth n st => rfl

/-- **C7, counterexample.**  With `max_depth = 1`: the empty directory
`/r/sub` lies within the depth limit yet gets no `(path, aggregate)` entry
(the claim promises one entry for *every* directory down to `max_depth`);
and the file `f` (usage 1024 bytes) inside `/r/a/b` (depth 2) is not added
to any reported ancestor — `/r/a`'s aggregate is 4096, the bare stat usage
of the directory entry `b`, not `4096 + 1024` as the claim's "total size
including all its contents" requires. -/
theorem dirSize_depth_claim_counterexample :
    (dir_size "/r" (.dir "r" ⟨1, 1, 0, 8, 2⟩ [.dir "sub" ⟨1, 2, 0, 8, 2⟩ []])
        1 false true).map (·.1) = ["/r"] ∧
    dir_size "/r"
        (.dir "r" ⟨1, 1, 0, 8, 2⟩
          [.dir "a" ⟨1, 2, 0, 8, 2⟩
            [.dir "b" ⟨1, 3, 0, 8, 2⟩ [.file "f" ⟨1, 4, 1000, 2, 1⟩]]])
        1 false true = [("/r", 4096), ("/r/a", 4096)] := by
  decide

/-! ## Symlink removal (lines 455-527), selection-driven purge
(lines 1148-1200), and the filesystem effect of a batch of unlinks -/

/-- The symlink entries of one directory listing, with their stats
(`entry.is_symlink()` over `os.scandir(curdir)`; `total_size` uses
`st.st_size`). -/
def symFilesOf (base : String) (cs : List FNode) : List (String × StatR) :=
  cs.filterMap fun c =>
    match c with
    | .sym n st => some (joinPath base n, st)
    | _ => none

/-! The symlink-collection walk of `remove_symlinks` (lines 470-491): same
`os.walk` shape as the other collectors, but keeping symlinks; there is no
per-entry device check, only whole-directory pruning. -/
mutual

/-- Walk the remaining entries of one directory listing, recursing into each
subdirectory in order. -/
def walkSymDirs (xdev : Bool) (rootDev : Nat) (base : String) :
    List FNode → List (String × StatR)
  | [] => []
  | c :: cs =>
    walkSymEnter xdev rootDev base c ++ walkSymDirs xdev rootDev base cs

/-- Enter one entry: subtrees of other devices are pruned whole. -/
def walkSymEnter (xdev : Bool) (rootDev : Nat) (base : String) :
    FNode → List (String × StatR)
  | .dir n st sub =>
    if xdev && !(st.dev = rootDev) then []
    else
      symFilesOf (joinPath base n) sub ++
        walkSymDirs xdev rootDev (joinPath base n) sub
  | _ => []

end

/-- All symlinks under the target directory, in walk order. -/
def collectSymlinks (xdev : Bool) (targetPath : String) :
    FNode → List (String × StatR)
  | .dir _ st cs => symFilesOf targetPath cs ++ walkSymDirs xdev st.dev targetPath cs
  | _ => []

/-- The observable outcome of `remove_symlinks`, which returns a pair
`(count, total_size)`. -/
structure SymRun where
  candidates : List String
  total : Nat
  ret : Nat × Nat
  unlinked : List String
deriving Repr, DecidableEq

/-- `remove_symlinks` (lines 455-527). -/
def remove_symlinks (targetPath : String) (t : FNode)
    (yes dry_run xdev : Bool) (ans : String) : SymRun :=
  let symlinks := collectSymlinks xdev targetPath t
  let total_size := (symlinks.map fun e => e.2.size).sum
  if symlinks.isEmpty then ⟨[], total_size, (0, 0), []⟩
  else if dry_run then
    ⟨symlinks.map (·.1), total_size, (symlinks.length, total_size), []⟩
  else if !yes && !isYes ans then
    ⟨symlinks.map (·.1), total_size, (0, 0), []⟩
  else
    ⟨symlinks.map (·.1), total_size,
      ((symlinks.map (·.1)).length, total_size), symlinks.map (·.1)⟩

/-- The selection-driven purge of `main` (lines 1148-1200): the selected
inode set, their stats and the filesystem-wide hits come from the
interactive selector; the freed estimate sums usage over the selected inodes
that have a stat (`for k in selected_inodes if k in inode_stat`). -/
def main_selection_purge (selected_inodes : List (Nat × Nat))
    (inode_stat : List ((Nat × Nat) × StatR))
    (filtered_hits : List ((Nat × Nat) × List String))
    (yes dry_run : Bool) (ans : String) : OpRun :=
  if selected_inodes.isEmpty then ⟨[], 0, (0, 0, 0), []⟩
  else
    let total_paths := (filtered_hits.map fun kv => kv.2.length).sum
    let freed_bytes := selected_inodes.foldl
      (fun a k => (dlookup k inode_stat).elim a fun st => a + usageR st) 0
    let listed := (filtered_hits.map (·.2)).flatten
    if dry_run then
      ⟨listed, freed_bytes, (selected_inodes.length, total_paths, freed_bytes), []⟩
    else if !yes && !isYes ans then ⟨listed, freed_bytes, (0, 0, 0), []⟩
    else
      ⟨listed, freed_bytes,
        (selected_inodes.length, listed.length, freed_bytes), listed⟩

/-! Applying a batch of unlinks to the filesystem tree: `os.unlink` removes
regular files and symlinks whose path is in the batch; directories are
untouched (`IsADirectoryError` is caught per path). -/

mutual

/-- The entry after a batch of unlinks ( `[]` if the entry itself was
unlinked). -/
def removeN (ps : List String) (base : String) : FNode → List FNode
  | .file n st => if joinPath base n ∈ ps then [] else [.file n st]
  | .sym n st => if joinPath base n ∈ ps then [] else [.sym n st]
  | .oth n st => [.oth n st]
  | .dir n st cs => [.dir n st (removeL ps (joinPath base n) cs)]

/-- A listing after a batch of unlinks. -/
def removeL (ps : List String) (base : String) : List FNode → List FNode
  | [] => []
  | c :: cs => removeN ps base c ++ removeL ps base cs

end

/-- The filesystem rooted at `rootPath` after a batch of unlinks. -/
def removePaths (ps : List String) (rootPath : String) : FNode → FNode
  | .dir n st cs => .dir n st (removeL ps rootPath cs)
  | t => t

mutual

theorem removeN_nil (base : String) : ∀ c : FNode, removeN [] base c = [c]
  | .file n st => by simp [removeN]
  | .sym n st => by simp [removeN]
  | .oth n st => rfl
  | .dir n st cs => by
    rw [removeN, removeL_nil (joinPath base n) cs]

theorem removeL_nil (base : String) : ∀ cs : List FNode, removeL [] base cs = cs
  | [] => rfl
  | c :: cs => by
    rw [removeL, removeN_nil base c, removeL_nil base cs]
    rfl

end

theorem removePaths_nil (rootPath : String) (t : FNode) :
    removePaths [] rootPath t = t := by
  cases t with
  | dir n st cs => rw [removePaths, removeL_nil]
  | file n st => rfl
  | sym n st => rfl
  | oth n st => rfl

/-- **C8.** For each of the four deletion operations — complete-object
deletion, symlink removal, global purge, selection-driven purge — a dry-run
invocation reports the same candidate path list and the same freed-byte
(resp. total-size) estimate as a non-dry-run invocation, passes nothing to
`os.unlink`, and leaves the filesystem tree unchanged. -/
theorem dry_run_same_report_no_deletion
    (tp frp : String) (t tT tR : FNode) (yes xdev : Bool) (ans ans' : String)
    (sel : List (Nat × Nat)) (statm : List ((Nat × Nat) × StatR))
    (hits : List ((Nat × Nat) × List String)) :
    ((delete_variant_a tp t yes true xdev ans).candidates =
        (delete_variant_a tp t true false xdev ans').candidates ∧
      (delete_variant_a tp t yes true xdev ans).freed =
        (delete_variant_a tp t true false xdev ans').freed ∧
      (delete_variant_a tp t yes true xdev ans).unlinked = [] ∧
      removePaths (delete_variant_a tp t yes true xdev ans).unlinked tp t = t) ∧
    ((remove_symlinks tp t yes true xdev ans).candidates =
        (remove_symlinks tp t true false xdev ans').candidates ∧
      (remove_symlinks tp t yes true xdev ans).total =
        (remove_symlinks tp t true false xdev ans').total ∧
      (remove_symlinks tp t yes true xdev ans).unlinked = [] ∧
      removePaths (remove_symlinks tp t yes true xdev ans).unlinked tp t = t) ∧
    ((purge_hardlink_groups_globally tp frp tT tR yes true xdev ans).candidates =
        (purge_hardlink_groups_globally tp frp tT tR true false xdev ans').candidates ∧
      (purge_hardlink_groups_globally tp frp tT tR yes true xdev ans).freed =
        (purge_hardlink_groups_globally tp frp tT tR true false xdev ans').freed ∧
      (purge_hardlink_groups_globally tp frp tT tR yes true xdev ans).unlinked = [] ∧
      removePaths (purge_hardlink_groups_globally tp frp tT tR yes true xdev ans).unlinked
        frp tR = tR) ∧
    ((main_selection_purge sel statm hits yes true ans).candidates =
        (main_selection_purge sel statm hits true false ans').candidates ∧
      (main_selection_purge sel statm hits yes true ans).freed =
        (main_selection_purge sel statm hits true false ans').freed ∧
      (main_selection_purge sel statm hits yes true ans).unlinked = [] ∧
      removePaths (main_selection_purge sel statm hits yes true ans).unlinked
        frp tR = tR) := by
  refine ⟨?_, ?_, ?_, ?_⟩
  · by_cases h : (find_deletable_inodes_variant_a xdev tp t).1.length = 0
    · simp [delete_variant_a, h, removePaths_nil]
    · simp [delete_variant_a, h, removePaths_nil]
  · by_cases h : (collectSymlinks xdev tp t).isEmpty
    · simp [remove_symlinks, h, removePaths_nil]
    · simp [remove_symlinks, h, removePaths_nil]
  · by_cases h : (collect_target_inodes xdev tp tT).1.isEmpty
    · simp [purge_hardlink_groups_globally, h, removePaths_nil]
    · by_cases h2 : (buildPathGroups (find_all_paths_for_inodes xdev
          (collect_target_inodes xdev tp tT).1 frp tR)).isEmpty
      · simp [purge_hardlink_groups_globally, h, h2, removePaths_nil]
      · simp [purge_hardlink_groups_globally, h, h2, removePaths_nil]
  · by_cases h : sel.isEmpty
    · simp [main_selection_purge, h, removePaths_nil]
    · simp [main_selection_purge, h, removePaths_nil]

/-- **C10.** When the confirmation prompt is declined — the stripped,
lower-cased answer is neither `y` nor `yes` — both complete-object deletion
and global purge pass nothing to `os.unlink` and return the all-zero triple
`(0, 0, 0)`, the same value returned when no candidates exist, rather than
the counts and freed-byte estimate they just reported. -/
theorem declined_confirmation_returns_zeros
    (tp frp : String) (t tT tR : FNode) (xdev : Bool) (ans : String)
    (hans : isYes ans = false) :
    (delete_variant_a tp t false false xdev ans).ret = (0, 0, 0) ∧
    (delete_variant_a tp t false false xdev ans).unlinked = [] ∧
    (purge_hardlink_groups_globally tp frp tT tR false false xdev ans).ret =
      (0, 0, 0) ∧
    (purge_hardlink_groups_globally tp frp tT tR false false xdev ans).unlinked =
      [] := by
  have hva : (delete_variant_a tp t false false xdev ans).ret = (0, 0, 0) ∧
      (delete_variant_a tp t false false xdev ans).unlinked = [] := by
    by_cases h : (find_deletable_inodes_variant_a xdev tp t).1.length = 0
    · simp [delete_variant_a, h]
    · simp [delete_variant_a, h, hans]
  have hpu : (purge_hardlink_groups_globally tp frp tT tR false false xdev ans).ret =
      (0, 0, 0) ∧
      (purge_hardlink_groups_globally tp frp tT tR false false xdev ans).unlinked =
        [] := by
    by_cases h : (collect_target_inodes xdev tp tT).1.isEmpty
    · simp [purge_hardlink_groups_globally, h]
    · by_cases h2 : (buildPathGroups (find_all_paths_for_inodes xdev
          (collect_target_inodes xdev tp tT).1 frp tR)).isEmpty
      · simp [purge_hardlink_groups_globally, h, h2]
      · simp [purge_hardlink_groups_globally, h, h2, hans]
  exact ⟨hva.1, hva.2, hpu.1, hpu.2⟩

/-- Witness for C10 at a concrete filesystem with a non-empty candidate set
(`/d/c` qualifies for both operations) and the declined answer `" No "`. -/
theorem declined_confirmation_returns_zeros_witness :
    (delete_variant_a "/d" (.dir "d" ⟨1, 1, 4096, 8, 2⟩
        [.file "c" ⟨1, 11, 4096, 8, 1⟩]) false false true " No ").ret =
      (0, 0, 0) ∧
    (delete_variant_a "/d" (.dir "d" ⟨1, 1, 4096, 8, 2⟩
        [.file "c" ⟨1, 11, 4096, 8, 1⟩]) false false true " No ").unlinked = [] ∧
    (purge_hardlink_groups_globally "/d" "/root" (.dir "d" ⟨1, 1, 4096, 8, 2⟩
        [.file "c" ⟨1, 11, 4096, 8, 1⟩]) (.dir "root" ⟨1, 2, 4096, 8, 3⟩
        [.dir "d" ⟨1, 1, 4096, 8, 2⟩ [.file "c" ⟨1, 11, 4096, 8, 1⟩]])
        false false true " No ").ret = (0, 0, 0) ∧
    (purge_hardlink_groups_globally "/d" "/root" (.dir "d" ⟨1, 1, 4096, 8, 2⟩
        [.file "c" ⟨1, 11, 4096, 8, 1⟩]) (.dir "root" ⟨1, 2, 4096, 8, 3⟩
        [.dir "d" ⟨1, 1, 4096, 8, 2⟩ [.file "c" ⟨1, 11, 4096, 8, 1⟩]])
        false false true " No ").unlinked = [] :=
  declined_confirmation_returns_zeros "/d" "/root"
    (.dir "d" ⟨1, 1, 4096, 8, 2⟩ [.file "c" ⟨1, 11, 4096, 8, 1⟩])
    (.dir "d" ⟨1, 1, 4096, 8, 2⟩ [.file "c" ⟨1, 11, 4096, 8, 1⟩])
    (.dir "root" ⟨1, 2, 4096, 8, 3⟩
      [.dir "d" ⟨1, 1, 4096, 8, 2⟩ [.file "c" ⟨1, 11, 4096, 8, 1⟩]])
    true " No " (by decide)

/-! ## C9: the interactive SelectionSet under mark / unmark -/

/-- Byte-wise prefix test on character lists. -/
def listStartsWith : List Char → List Char → Bool
  | [], _ => true
  | _ :: _, [] => false
  | p :: ps, c :: cs => p = c && listStartsWith ps cs

/-- `s.startswith(pre)` for path strings. -/
def pyStartswith (s pre : String) : Bool := listStartsWith pre.data s.data

theorem listStartsWith_self_append (x y : List Char) :
    listStartsWith x (x ++ y) = true := by
  induction x with
  | nil => rfl
  | cons p ps ih => simp [listStartsWith, ih]

theorem listStartsWith_of_append (x y s : List Char) :
    listStartsWith (x ++ y) s = true → listStartsWith x s = true := by
  induction x generalizing s with
  | nil => intro _; rfl
  | cons p ps ih =>
    intro h
    cases s with
    | nil => simp [listStartsWith] at h
    | cons c cs =>
      simp only [List.cons_append, listStartsWith, Bool.and_eq_true] at h ⊢
      exact ⟨h.1, ih cs h.2⟩

theorem joinPath_data (b n : String) :
    (joinPath b n).data = (b.data ++ ['/']) ++ n.data := by
  simp [joinPath, String.data_append]

theorem filesOf_under (b : String) (cs : List FNode) (e : String × StatR)
    (he : e ∈ filesOf b cs) :
    listStartsWith (b.data ++ ['/']) e.1.data = true := by
  simp only [filesOf, List.mem_filterMap] at he
  obtain ⟨c, hc, hf⟩ := he
  cases c with
  | file n st =>
    have h1 : (joinPath b n, st) = e := by injection hf
    rw [← h1]
    simp only [joinPath_data]
    exact listStartsWith_self_append _ _
  | sym n st => exact absurd hf (by simp)
  | oth n st => exact absurd hf (by simp)
  | dir n st sub => exact absurd hf (by simp)

mutual

theorem walkRegDirs_under (xdev : Bool) (rd : Nat) :
    ∀ (base : String) (cs : List FNode) (e : String × StatR),
      e ∈ walkRegDirs xdev rd base cs →
      listStartsWith (base.data ++ ['/']) e.1.data = true
  | _, [], e, he => by simp [walkRegDirs] at he
  | base, c :: cs, e, he => by
    rw [walkRegDirs] at he
    rcases List.mem_append.1 he with h | h
    · exact walkRegEnter_under xdev rd base c e h
    · exact walkRegDirs_under xdev rd base cs e h

theorem walkRegEnter_under (xdev : Bool) (rd : Nat) :
    ∀ (base : String) (c : FNode) (e : String × StatR),
      e ∈ walkRegEnter xdev rd base c →
      listStartsWith (base.data ++ ['/']) e.1.data = true
  | _, .file _ _, e, he => by simp [walkRegEnter] at he
  | _, .sym _ _, e, he => by simp [walkRegEnter] at he
  | _, .oth _ _, e, he => by simp [walkRegEnter] at he
  | base, .dir n st sub, e, he => by
    rw [walkRegEnter] at he
    by_cases h1 : xdev && !(st.dev = rd)
    · rw [if_pos h1] at he
      simp at he
    · rw [if_neg h1] at he
      have hdeep : listStartsWith ((joinPath base n).data ++ ['/']) e.1.data = true := by
        rcases List.mem_append.1 he with h | h
        · exact filesOf_under (joinPath base n) sub e h
        · exact walkRegDirs_under xdev rd (joinPath base n) sub e h
      have hshape : (joinPath base n).data ++ ['/'] =
          (base.data ++ ['/']) ++ (n.data ++ ['/']) := by
        rw [joinPath_data, List.append_assoc]
      rw [hshape] at hdeep
      exact listStartsWith_of_append _ _ _ hdeep

end

/-- `collect_files_from_directory` (lines 724-754): recursively collect
`{full_path: inode_key}` for every regular file under a directory, with the
same walk and `xdev` pruning as the other collectors (the marked directory's
own device is checked first). -/
def collect_files_from_directory (xdev : Bool) (rootDev : Nat)
    (dirPath : String) : FNode → List (String × (Nat × Nat))
  | .dir _ st cs =>
    if xdev && !(st.dev = rootDev) then []
    else
      (filesOf dirPath cs ++ walkRegDirs xdev rootDev dirPath cs).map
        fun e => (e.1, inodeKey e.2)
  | _ => []

theorem collect_files_under (xdev : Bool) (rootDev : Nat) (dirPath : String)
    (node : FNode) (e : String × (Nat × Nat))
    (he : e ∈ collect_files_from_directory xdev rootDev dirPath node) :
    pyStartswith e.1 (dirPath ++ "/") = true := by
  cases node with
  | dir n st cs =>
    rw [collect_files_from_directory] at he
    by_cases h1 : xdev && !(st.dev = rootDev)
    · rw [if_pos h1] at he
      simp at he
    · rw [if_neg h1] at he
      obtain ⟨e', he', hee⟩ := List.mem_map.1 he
      have h2 : listStartsWith (dirPath.data ++ ['/']) e'.1.data = true := by
        rcases List.mem_append.1 he' with h | h
        · exact filesOf_under dirPath cs e' h
        · exact walkRegDirs_under xdev rootDev dirPath cs e' h
      have h3 : e.1 = e'.1 := by rw [← hee]
      rw [pyStartswith, h3, String.data_append]
      exact h2
  | file n st => simp [collect_files_from_directory] at he
  | sym n st => simp [collect_files_from_directory] at he
  | oth n st => simp [collect_files_from_directory] at he

/-- SPACE on an unmarked directory (lines 911-917):
`selected_file_inodes.update(collect_files_from_directory(full_path, ...))`. -/
def markDirectory (sel : List (String × (Nat × Nat))) (xdev : Bool)
    (rootDev : Nat) (dirPath : String) (node : FNode) :
    List (String × (Nat × Nat)) :=
  dupdate sel (collect_files_from_directory xdev rootDev dirPath node)

/-- SPACE on a marked directory (lines 895-905): delete every selected path
`p` with `p.startswith(full_path + os.sep)`. -/
def unmarkDirectory (sel : List (String × (Nat × Nat))) (dirPath : String) :
    List (String × (Nat × Nat)) :=
  sel.filter fun e => !(pyStartswith e.1 (dirPath ++ "/"))

theorem dinsert_fresh {α β : Type} [DecidableEq α] (m : List (α × β))
    (k : α) (v : β) (h : k ∉ m.map (·.1)) : dinsert m k v = m ++ [(k, v)] := by
  induction m with
  | nil => rfl
  | cons e es ih =>
    simp only [List.map_cons, List.mem_cons] at h
    push_neg at h
    have hne : ¬ e.1 = k := fun he => h.1 he.symm
    simp only [dinsert, if_neg hne]
    rw [ih h.2, List.cons_append]

theorem dupdate_fresh {α β : Type} [DecidableEq α] :
    ∀ (l m : List (α × β)),
      (∀ k ∈ l.map (·.1), k ∉ m.map (·.1)) → (l.map (·.1)).Nodup →
      dupdate m l = m ++ l := by
  intro l
  induction l with
  | nil => intro m _ _; simp [dupdate]
  | cons e es ih =>
    intro m hfresh hnodup
    simp only [List.map_cons, List.nodup_cons] at hnodup
    have he1 : e.1 ∉ m.map (·.1) :=
      hfresh e.1 (by simp)
    have step : dupdate m (e :: es) = dupdate (m ++ [e]) es := by
      simp only [dupdate, List.foldl_cons]
      rw [dinsert_fresh m e.1 e.2 he1]
    rw [step, ih (m ++ [e])]
    · simp
    · intro k hk
      simp only [List.map_append, List.mem_append, List.map_cons, List.map_nil,
        List.mem_cons, List.not_mem_nil]
      push_neg
      refine ⟨hfresh k (by simp [hk]), ?_, by simp⟩
      intro hke
      exact hnodup.1 (hke ▸ hk)
    · exact hnodup.2

/-- **C9, amended.**  Marking a directory merges exactly the freshly
collected set of regular-file paths currently under it into the
SelectionSet; unmarking removes every path under the directory with zero
residue; and mark immediately followed by unmark restores the prior
SelectionSet **provided the prior SelectionSet contained no path under that
directory** (otherwise those prior entries are removed too, see the
counterexample). -/
theorem selection_toggle_amended
    (xdev : Bool) (rootDev : Nat) (dirPath : String) (node : FNode)
    (sel : List (String × (Nat × Nat)))
    (hsel : ∀ e ∈ sel, pyStartswith e.1 (dirPath ++ "/") = false)
    (hnodup : ((collect_files_from_directory xdev rootDev dirPath node).map
      (·.1)).Nodup) :
    markDirectory sel xdev rootDev dirPath node =
      sel ++ collect_files_from_directory xdev rootDev dirPath node ∧
    (∀ sel' : List (String × (Nat × Nat)), ∀ e ∈ unmarkDirectory sel' dirPath,
      pyStartswith e.1 (dirPath ++ "/") = false) ∧
    unmarkDirectory (markDirectory sel xdev rootDev dirPath node) dirPath =
      sel := by
  have hmark : markDirectory sel xdev rootDev dirPath node =
      sel ++ collect_files_from_directory xdev rootDev dirPath node := by
    rw [markDirectory]
    apply dupdate_fresh _ _ _ hnodup
    intro k hk hks
    obtain ⟨e, he, hek⟩ := List.mem_map.1 hk
    obtain ⟨e', he', hek'⟩ := List.mem_map.1 hks
    have hunder : pyStartswith k (dirPath ++ "/") = true :=
      hek ▸ collect_files_under xdev rootDev dirPath node e he
    have hnot : pyStartswith k (dirPath ++ "/") = false :=
      hek' ▸ hsel e' he'
    rw [hunder] at hnot
    simp at hnot
  refine ⟨hmark, ?_, ?_⟩
  · intro sel' e he
    simp only [unmarkDirectory, List.mem_filter, Bool.not_eq_true'] at he
    exact he.2
  · rw [hmark, unmarkDirectory, List.filter_append]
    have h1 : sel.filter (fun e => !(pyStartswith e.1 (dirPath ++ "/"))) = sel := by
      apply List.filter_eq_self.2
      intro e he
      rw [hsel e he]
      rfl
    have h2 : (collect_files_from_directory xdev rootDev dirPath node).filter
        (fun e => !(pyStartswith e.1 (dirPath ++ "/"))) = [] := by
      rw [List.eq_nil_iff_forall_not_mem]
      intro e he
      rw [List.mem_filter] at he
      have := collect_files_under xdev rootDev dirPath node e he.1
      rw [this] at he
      simp at he
    rw [h1, h2, List.append_nil]

/-- **C9, counterexample.** If the prior SelectionSet already holds
`/d/sub/x` (marked individually), marking the directory `/d/sub` (containing
`x`, `y`) and immediately unmarking it yields the empty SelectionSet, not
the prior one — unmark removes every path under the directory, including
entries that predate the mark. -/
theorem selection_toggle_counterexample :
    unmarkDirectory
        (markDirectory [("/d/sub/x", (1, 5))] true 1 "/d/sub"
          (.dir "sub" ⟨1, 2, 4096, 8, 2⟩
            [.file "x" ⟨1, 5, 4096, 8, 1⟩, .file "y" ⟨1, 6, 4096, 8, 1⟩]))
        "/d/sub" = [] ∧
    ([("/d/sub/x", (1, 5))] : List (String × (Nat × Nat))) ≠ [] := by
  decide

/-- Witness for C9 (amended) at a concrete state: prior selection
`/other/z`, marking and unmarking `/d/sub` with files `x`, `y`. -/
theorem selection_toggle_amended_witness :
    markDirectory [("/other/z", (1, 9))] true 1 "/d/sub"
        (.dir "sub" ⟨1, 2, 4096, 8, 2⟩
          [.file "x" ⟨1, 5, 4096, 8, 1⟩, .file "y" ⟨1, 6, 4096, 8, 1⟩]) =
      [("/other/z", (1, 9))] ++
        collect_files_from_directory true 1 "/d/sub"
          (.dir "sub" ⟨1, 2, 4096, 8, 2⟩
            [.file "x" ⟨1, 5, 4096, 8, 1⟩, .file "y" ⟨1, 6, 4096, 8, 1⟩]) ∧
    (∀ sel' : List (String × (Nat × Nat)), ∀ e ∈ unmarkDirectory sel' "/d/sub",
      pyStartswith e.1 ("/d/sub" ++ "/") = false) ∧
    unmarkDirectory
        (markDirectory [("/other/z", (1, 9))] true 1 "/d/sub"
          (.dir "sub" ⟨1, 2, 4096, 8, 2⟩
            [.file "x" ⟨1, 5, 4096, 8, 1⟩, .file "y" ⟨1, 6, 4096, 8, 1⟩]))
        "/d/sub" = [("/other/z", (1, 9))] :=
  selection_toggle_amended true 1 "/d/sub"
    (.dir "sub" ⟨1, 2, 4096, 8, 2⟩
      [.file "x" ⟨1, 5, 4096, 8, 1⟩, .file "y" ⟨1, 6, 4096, 8, 1⟩])
    [("/other/z", (1, 9))] (by decide) (by decide)

/-! ## ScanSnapshot persistence (lines 533-603)

`save_scan_results` encodes each `(dev, ino)` dict key as the Python string
`str((dev, ino))`, i.e. `"(dev, ino)"` in decimal; `load_scan_results`
reconstructs keys with `eval(k_str)`.  We model the decimal rendering, the
tuple-literal grammar, and `eval` as a function that yields the pair for a
tuple literal and EXECUTES anything else as an arbitrary expression. -/

/-- Decimal digit character. -/
def digitChar : Nat → Char
  | 0 => '0'
  | 1 => '1'
  | 2 => '2'
  | 3 => '3'
  | 4 => '4'
  | 5 => '5'
  | 6 => '6'
  | 7 => '7'
  | 8 => '8'
  | _ => '9'

/-- Value of a decimal digit character. -/
def digitVal : Char → Nat
  | '0' => 0
  | '1' => 1
  | '2' => 2
  | '3' => 3
  | '4' => 4
  | '5' => 5
  | '6' => 6
  | '7' => 7
  | '8' => 8
  | '9' => 9
  | _ => 0

/-- Is this a decimal digit character? -/
def isDigitC : Char → Bool
  | '0' => true
  | '1' => true
  | '2' => true
  | '3' => true
  | '4' => true
  | '5' => true
  | '6' => true
  | '7' => true
  | '8' => true
  | '9' => true
  | _ => false

/-- The decimal digits of a natural number (Python `str` of a non-negative
`int`). -/
def encNat (n : Nat) : List Char :=
  if h : n < 10 then [digitChar n]
  else encNat (n / 10) ++ [digitChar (n % 10)]
termination_by n
decreasing_by
  have h10 : 10 ≤ n := Nat.le_of_not_lt h
  exact Nat.div_lt_self (by omega) (by omega)

/-- Reading decimal digits back (the number a tuple-literal component
denotes). -/
def parseDigits (cs : List Char) : Nat :=
  cs.foldl (fun a c => a * 10 + digitVal c) 0

theorem digitVal_digitChar (d : Nat) (hd : d < 10) :
    digitVal (digitChar d) = d := by
  interval_cases d <;> decide

theorem isDigitC_digitChar (d : Nat) (hd : d < 10) :
    isDigitC (digitChar d) = true := by
  interval_cases d <;> decide

theorem encNat_all_digits (n : Nat) :
    ∀ c ∈ encNat n, isDigitC c = true := by
  induction n using Nat.strong_induction_on with
  | _ n ih =>
    intro c hc
    rw [encNat] at hc
    by_cases h : n < 10
    · rw [dif_pos h] at hc
      simp only [List.mem_singleton] at hc
      rw [hc]
      exact isDigitC_digitChar n h
    · rw [dif_neg h] at hc
      rcases List.mem_append.1 hc with h1 | h1
      · exact ih (n / 10) (Nat.div_lt_self (by omega) (by omega)) c h1
      · simp only [List.mem_singleton] at h1
        rw [h1]
        exact isDigitC_digitChar (n % 10) (Nat.mod_lt n (by omega))

theorem encNat_ne_nil (n : Nat) : encNat n ≠ [] := by
  rw [encNat]
  by_cases h : n < 10
  · rw [dif_pos h]
    simp
  · rw [dif_neg h]
    simp

theorem parseDigits_from_encNat (n : Nat) :
    ∀ a : Nat, List.foldl (fun a c => a * 10 + digitVal c) a (encNat n) =
      a * 10 ^ (encNat n).length + n := by
  induction n using Nat.strong_induction_on with
  | _ n ih =>
    intro a
    rw [encNat]
    by_cases h : n < 10
    · rw [dif_pos h]
      simp only [List.foldl_cons, List.foldl_nil, List.length_singleton,
        pow_one]
      rw [digitVal_digitChar n h]
    · rw [dif_neg h]
      rw [List.foldl_append]
      rw [ih (n / 10) (Nat.div_lt_self (by omega) (by omega)) a]
      simp only [List.foldl_cons, List.foldl_nil, List.length_append,
        List.length_singleton]
      rw [digitVal_digitChar (n % 10) (Nat.mod_lt n (by omega))]
      rw [pow_succ]
      have hdm : n / 10 * 10 + n % 10 = n := by omega
      ring_nf
      omega

theorem parseDigits_encNat (n : Nat) : parseDigits (encNat n) = n := by
  rw [parseDigits, parseDigits_from_encNat n 0]
  simp

/-- The fixed two-integer tuple-literal grammar `"(d, i)"` — the only shape
`str((dev, ino))` ever produces. -/
def parseTupleKey (cs : List Char) : Option (Nat × Nat) :=
  match cs with
  | '(' :: rest =>
    let ds1 := rest.takeWhile isDigitC
    match rest.dropWhile isDigitC with
    | ',' :: ' ' :: rest2 =>
      let ds2 := rest2.takeWhile isDigitC
      match rest2.dropWhile isDigitC with
      | [')'] =>
        if ds1.isEmpty || ds2.isEmpty then none
        else some (parseDigits ds1, parseDigits ds2)
      | _ => none
    | _ => none
  | _ => none

/-- Outcome of Python `eval` on a snapshot key string: a two-integer tuple
literal evaluates to its pair; any other string is an arbitrary expression
that `eval` EXECUTES (whatever its effects) before `load` goes on. -/
inductive EvalOutcome where
  | value (k : Nat × Nat)
  | execute (code : String)
deriving Repr, DecidableEq

/-- `eval(k_str)` at line 594/597. -/
def pyEval (s : String) : EvalOutcome :=
  match parseTupleKey s.data with
  | some k => .value k
  | none => .execute s

/-- `str((dev, ino))`: the textual key the snapshot stores. -/
def pyStrKey (k : Nat × Nat) : String :=
  ⟨'(' :: (encNat k.1 ++ (',' :: ' ' :: (encNat k.2 ++ [')'])))⟩

theorem takeWhile_digits_append (xs ys : List Char)
    (h : ∀ c ∈ xs, isDigitC c = true)
    (hy : ∀ y l, ys = y :: l → isDigitC y = false) :
    (xs ++ ys).takeWhile isDigitC = xs ∧
      (xs ++ ys).dropWhile isDigitC = ys := by
  induction xs with
  | nil =>
    cases ys with
    | nil => simp
    | cons y l =>
      have := hy y l rfl
      simp [List.takeWhile_cons, List.dropWhile_cons, this]
  | cons x xs ih =>
    have hx : isDigitC x = true := h x (by simp)
    have ih' := ih (fun c hc => h c (by simp [hc]))
    simp only [List.cons_append, List.takeWhile_cons, List.dropWhile_cons, hx,
      if_true]
    simp only [ih'.1, ih'.2, and_self]

theorem pyEval_pyStrKey (k : Nat × Nat) : pyEval (pyStrKey k) = .value k := by
  obtain ⟨d, i⟩ := k
  have h1 := takeWhile_digits_append (encNat d)
    (',' :: ' ' :: (encNat i ++ [')'])) (encNat_all_digits d)
    (fun y l hy => by
      injection hy with hy1 _
      rw [← hy1]
      rfl)
  have h2 := takeWhile_digits_append (encNat i) [')']
    (encNat_all_digits i)
    (fun y l hy => by
      injection hy with hy1 _
      rw [← hy1]
      rfl)
  have hmk : (pyStrKey (d, i)).data =
      '(' :: (encNat d ++ (',' :: ' ' :: (encNat i ++ [')']))) := rfl
  rw [pyEval, hmk]
  simp only [parseTupleKey, h1.1, h1.2, h2.1, h2.2]
  have hne1 : (encNat d).isEmpty = false := by
    cases he : encNat d with
    | nil => exact absurd he (encNat_ne_nil d)
    | cons c cs => rfl
  have hne2 : (encNat i).isEmpty = false := by
    cases he : encNat i with
    | nil => exact absurd he (encNat_ne_nil i)
    | cons c cs => rfl
  simp only [hne1, hne2, parseDigits_encNat]
  rfl

/-- The numeric stat fields written for each inode (lines 549-555):
`st_blocks` is stored via `getattr(s, "st_blocks", 0)`. -/
structure StatJson where
  st_size : Nat
  st_blocks : Nat
  st_dev : Nat
  st_ino : Nat
  st_nlink : Nat
deriving Repr, DecidableEq

/-- The JSON document written by `save_scan_results` (lines 544-559); JSON
round-trips the strings and integers of the document verbatim, so the
document itself is the model of the file. -/
structure Snapshot where
  target_dir : String
  fs_root : String
  inodes : List (List Nat)
  inode_stat : List (String × StatJson)
  hits : List (String × List String)
deriving Repr, DecidableEq

/-- The in-memory scan state
`(target_dir, fs_root, inodes, inode_stat, hits)`. -/
structure ScanState where
  target_dir : String
  fs_root : String
  inodes : List (Nat × Nat)
  inode_stat : List ((Nat × Nat) × StatR)
  hits : List ((Nat × Nat) × List String)
deriving Repr, DecidableEq

/-- The five stat fields saved for an inode. -/
def statToJson (s : StatR) : StatJson := ⟨s.size, s.blocks, s.dev, s.ino, s.nlink⟩

/-- `StatProxy` (lines 584-590): the object `load` rebuilds from the five
stored fields. -/
def statOfJson (j : StatJson) : StatR :=
  ⟨j.st_dev, j.st_ino, j.st_size, j.st_blocks, j.st_nlink⟩

/-- `save_scan_results` (lines 533-562). -/
def save_scan_results (st : ScanState) : Snapshot where
  target_dir := st.target_dir
  fs_root := st.fs_root
  inodes := st.inodes.map fun k => [k.1, k.2]
  inode_stat := st.inode_stat.map fun kv => (pyStrKey kv.1, statToJson kv.2)
  hits := st.hits.map fun kv => (pyStrKey kv.1, kv.2)

/-- Rebuild a dict keyed by `(dev, ino)` from its textual keys with
`eval`: tuple literals become pairs, anything else is an arbitrary
expression that got EXECUTED — such keys are collected in the second
component (their runtime value, if any, is unspecified). -/
def evalKeys {β : Type} (l : List (String × β)) :
    List ((Nat × Nat) × β) × List String :=
  l.foldr
    (fun kv acc =>
      match pyEval kv.1 with
      | .value k => ((k, kv.2) :: acc.1, acc.2)
      | .execute c => (acc.1, c :: acc.2))
    ([], [])

/-- `load_scan_results` (lines 565-603).  Returns the rebuilt state and the
list of key strings that were executed as arbitrary expressions by
`eval`. -/
def load_scan_results (d : Snapshot) : ScanState × List String :=
  let inodes := d.inodes.filterMap fun l =>
    match l with
    | [a, b] => some (a, b)
    | _ => none
  let stats := evalKeys d.inode_stat
  let hits := evalKeys d.hits
  (⟨d.target_dir, d.fs_root, inodes,
      stats.1.map fun kv => (kv.1, statOfJson kv.2), hits.1⟩,
    stats.2 ++ hits.2)

theorem evalKeys_of_saved {β : Type} :
    ∀ l : List ((Nat × Nat) × β),
      evalKeys (l.map fun kv => (pyStrKey kv.1, kv.2)) = (l, []) := by
  intro l
  induction l with
  | nil => rfl
  | cons kv rest ih =>
    simp only [List.map_cons, evalKeys, List.foldr_cons, pyEval_pyStrKey]
    simp only [evalKeys] at ih
    rw [ih]

theorem inodes_roundtrip (l : List (Nat × Nat)) :
    ((l.map fun k => [k.1, k.2]).filterMap fun m =>
      match m with
      | [a, b] => some ((a, b) : Nat × Nat)
      | _ => none) = l := by
  induction l with
  | nil => rfl
  | cons k rest ih =>
    simp only [List.map_cons, List.filterMap_cons, ih]

/-- **C6.** `save` followed by `load` of a ScanSnapshot reproduces the exact
`(target_dir, fs_root, inode_set, metadata, path_map)` tuple — every path
string and numeric field identical — with no key ever executed, and every
inode-pair key round-trips exactly through the textual `"(dev, ino)"`
encoding. -/
theorem save_load_roundtrip (st : ScanState) :
    load_scan_results (save_scan_results st) = (st, []) ∧
    ∀ k : Nat × Nat, pyEval (pyStrKey k) = .value k := by
  refine ⟨?_, pyEval_pyStrKey⟩
  obtain ⟨td, fr, inodes, statm, hits⟩ := st
  have hstat : statm.map (fun kv => (pyStrKey kv.1, statToJson kv.2)) =
      (statm.map fun kv => (kv.1, statToJson kv.2)).map
        fun kv => (pyStrKey kv.1, kv.2) := by
    rw [List.map_map]
    rfl
  have hstatback :
      ((statm.map fun kv => (kv.1, statToJson kv.2)).map
        fun kv => (kv.1, statOfJson kv.2)) = statm := by
    rw [List.map_map]
    have : ((fun kv => ((kv.1, statOfJson kv.2) : (Nat × Nat) × StatR)) ∘
        fun kv => ((kv.1, statToJson kv.2) : (Nat × Nat) × StatJson)) =
        fun kv : (Nat × Nat) × StatR => (kv.1, kv.2) := rfl
    rw [this]
    simp
  simp only [load_scan_results, save_scan_results, hstat, evalKeys_of_saved,
    inodes_roundtrip, hstatback, List.append_nil]

/-- **C5** (the code violates it): `load_scan_results` reconstructs dict
keys with `eval(k_str)`, not with a fixed two-integer parse.  On a snapshot
whose `inode_stat` key is the expression
`__import__("os").system("touch /tmp/pwned")`, loading EXECUTES that
attacker-supplied expression instead of rejecting the malformed record: the
executed-expression list of the load is non-empty. -/
theorem load_scan_executes_embedded_expression :
    (load_scan_results
      { target_dir := "/t"
        fs_root := "/"
        inodes := []
        inode_stat := [("__import__(\"os\").system(\"touch /tmp/pwned\")",
          ⟨0, 0, 0, 0, 0⟩)]
        hits := [] }).2 =
      ["__import__(\"os\").system(\"touch /tmp/pwned\")"] ∧
    (load_scan_results
      { target_dir := "/t"
        fs_root := "/"
        inodes := []
        inode_stat := [("__import__(\"os\").system(\"touch /tmp/pwned\")",
          ⟨0, 0, 0, 0, 0⟩)]
        hits := [] }).2 ≠ [] := by
  refine ⟨by decide, ?_⟩
  intro h
  rw [show (load_scan_results
      { target_dir := "/t"
        fs_root := "/"
        inodes := []
        inode_stat := [("__import__(\"os\").system(\"touch /tmp/pwned\")",
          ⟨0, 0, 0, 0, 0⟩)]
        hits := [] }).2 =
      ["__import__(\"os\").system(\"touch /tmp/pwned\")"] from by decide] at h
  exact absurd h (by decide)

end HardlinkCleaner
